import Mathlib

/-!
Shallow embedding of the core numerical routines of the stcal repository
(`src/stcal/jump/twopoint_difference.py`, `src/stcal/ramp_fitting/utils.py`,
`src/stcal/ramp_fitting/ramp_fit.py`) together with theorems settling the
frozen claims about them.

Floating-point values are modelled by the type `FV`: a rational payload
plus the IEEE special values NaN and the two infinities, with the
propagation rules the code relies on (NaN contaminates arithmetic,
comparisons with NaN are false, `x / 0` is a signed infinity for `x != 0`
and NaN for `0 / 0`).  `np.sqrt` is modelled by an explicit square-root
parameter `sq : Rat -> Rat` threaded through the definitions; the concrete
instantiation `sqrtQ` agrees with the machine square root on every
argument that is the square of a rational, and every concrete input used
below is chosen so that all square roots taken along the trace are of
perfect rational squares (hence exact both here and in binary floating
point).

Arrays are nested lists indexed in the same order as the NumPy arrays
(`[integration][group][row][column]`); vectorised element-wise NumPy
operations are rendered as per-index constructions, which is the
documented intended semantics (spec section 9 explicitly equates the two).
-/

namespace Stcal

unseal Rat.add Rat.mul Rat.inv Rat.sub

/-- Model of an IEEE double as used by the code: NaN, plus/minus infinity,
or a finite (rational) value. -/
inductive FV where
  | nan : FV
  | pinf : FV
  | ninf : FV
  | fin : ℚ → FV
deriving DecidableEq, Repr

namespace FV

/-- NaN test (`np.isnan`). -/
def isNan : FV → Bool
  | nan => true
  | _ => false

/-- Float comparison `x < y`; any comparison involving NaN is false. -/
def flt : FV → FV → Bool
  | nan, _ => false
  | _, nan => false
  | ninf, ninf => false
  | ninf, _ => true
  | _, ninf => false
  | pinf, _ => false
  | fin _, pinf => true
  | fin a, fin b => decide (a < b)

/-- Float subtraction with NaN/infinity propagation. -/
def sub : FV → FV → FV
  | nan, _ => nan
  | _, nan => nan
  | pinf, pinf => nan
  | pinf, _ => pinf
  | ninf, ninf => nan
  | ninf, _ => ninf
  | fin _, pinf => ninf
  | fin _, ninf => pinf
  | fin a, fin b => fin (a - b)

/-- Float addition with NaN/infinity propagation. -/
def add : FV → FV → FV
  | nan, _ => nan
  | _, nan => nan
  | pinf, ninf => nan
  | pinf, _ => pinf
  | ninf, pinf => nan
  | ninf, _ => ninf
  | fin _, pinf => pinf
  | fin _, ninf => ninf
  | fin a, fin b => fin (a + b)

/-- Float absolute value (`np.abs`). -/
def fabs : FV → FV
  | nan => nan
  | pinf => pinf
  | ninf => pinf
  | fin q => fin |q|

/-- Float division: `x / 0` is a signed infinity for finite `x != 0` and
NaN for `0 / 0`, as in IEEE arithmetic (NumPy emits a warning, which the
code suppresses or ignores, but no exception). -/
def fdiv : FV → FV → FV
  | nan, _ => nan
  | _, nan => nan
  | pinf, pinf => nan
  | pinf, ninf => nan
  | ninf, pinf => nan
  | ninf, ninf => nan
  | pinf, fin b => if b < 0 then ninf else pinf
  | ninf, fin b => if b < 0 then pinf else ninf
  | fin _, pinf => fin 0
  | fin _, ninf => fin 0
  | fin a, fin b =>
      if b = 0 then (if a = 0 then nan else if 0 < a then pinf else ninf)
      else fin (a / b)

/-- Float square root via the rational square-root parameter `sq`:
NaN for NaN or negative arguments, `+inf` for `+inf`. -/
def sqrtF (sq : ℚ → ℚ) : FV → FV
  | nan => nan
  | ninf => nan
  | pinf => pinf
  | fin q => if q < 0 then nan else fin (sq q)

end FV

/-- Structurally recursive integer square root (the largest `k` whose
square is at most `n`), written so that concrete values reduce in the
kernel. -/
def isqrtAux (n : ℕ) : ℕ → ℕ → ℕ
  | 0, k => k
  | fuel + 1, k => if (k + 1) * (k + 1) ≤ n then isqrtAux n fuel (k + 1) else k

/-- See `isqrtAux`. -/
def isqrt (n : ℕ) : ℕ := isqrtAux n n 0

/-- A natural number as a rational, written with `mkRat` so concrete
values reduce in the kernel. -/
def natQ (n : ℕ) : ℚ := mkRat n 1

/-- Exact rational square root: for `q = a ^ 2` with `a : ℚ`, `a ≥ 0`,
`sqrtQ q = a` (the model of `np.sqrt` at arguments where the machine
square root is exact); elsewhere a floor-type approximation. -/
def sqrtQ (q : ℚ) : ℚ :=
  if q ≤ 0 then 0 else mkRat (isqrt (q.num.toNat * q.den)) q.den

/-- Number of NaN entries of a list (`np.sum(np.isnan(...))` along an axis). -/
def nanCount (l : List FV) : ℕ := l.countP (fun x => x.isNan)

/-- The finite (non-NaN, non-infinite) values of a list, in order. -/
def finVals (l : List FV) : List ℚ :=
  l.filterMap (fun x => match x with | FV.fin q => some q | _ => none)

/-- Insertion into a sorted rational list. -/
def insertQ (x : ℚ) : List ℚ → List ℚ
  | [] => [x]
  | y :: ys => if x ≤ y then x :: y :: ys else y :: insertQ x ys

/-- Ascending insertion sort of a rational list. -/
def sortQ : List ℚ → List ℚ := List.foldr insertQ []

/-- Model of `np.nanmedian` on a 1-D slice: the median of the non-NaN
entries (average of the two central elements for even counts), NaN if
there are none.  The slices this is applied to contain only finite values
and NaNs, never infinities. -/
def nanmedianF (l : List FV) : FV :=
  let v := finVals l
  if v.length = 0 then FV.nan
  else
    let s := sortQ v
    let n := s.length
    if n % 2 = 1 then FV.fin (s.getD (n / 2) 0)
    else FV.fin ((s.getD (n / 2 - 1) 0 + s.getD (n / 2) 0) / 2)

/-- Model of `np.nanargmax` on a 1-D slice: index of the first occurrence
of the largest non-NaN entry, or `none` when every entry is NaN — in which
case NumPy raises `ValueError`, which callers of this model propagate as a
failure. -/
def nanargmaxAux : List FV → ℕ → Option (ℕ × FV) → Option (ℕ × FV)
  | [], _, best => best
  | x :: xs, i, best =>
      let best' :=
        if x.isNan then best
        else
          match best with
          | none => some (i, x)
          | some (bi, bv) => if FV.flt bv x then some (i, x) else some (bi, bv)
      nanargmaxAux xs (i + 1) best'

/-- See `nanargmaxAux`. -/
def nanargmax (l : List FV) : Option ℕ := (nanargmaxAux l 0 none).map Prod.fst

/-- Model of `np.nanmax` on a 1-D slice: the largest non-NaN entry, NaN if
every entry is NaN (NumPy warns but returns NaN). -/
def nanmaxF (l : List FV) : FV :=
  match l.filter (fun x => !x.isNan) with
  | [] => FV.nan
  | h :: t => t.foldl (fun a b => if FV.flt a b then b else a) h

/-- Model of `np.nanmin` on a slice: the smallest non-NaN entry, NaN if
every entry is NaN. -/
def nanminF (l : List FV) : FV :=
  match l.filter (fun x => !x.isNan) with
  | [] => FV.nan
  | h :: t => t.foldl (fun a b => if FV.flt b a then b else a) h

/-- The 1-D branch of `calc_med_first_diffs`
(`twopoint_difference.py` lines 257-269): with `k` usable (non-NaN)
diffs, for `k ≥ 4` clip the diff of largest absolute value and return the
median of the rest; for `k = 3` the plain nan-median; for `k = 2` the
minimum of the absolute values (`np.nanmin(np.abs(first_diffs))`); else
NaN.  The `none` fallback of the `k ≥ 4` clip is unreachable (`k ≥ 4`
guarantees a non-NaN entry). -/
def calc_med_first_diffs (first_diffs : List FV) : FV :=
  let k := first_diffs.length - nanCount first_diffs
  if 4 ≤ k then
    match nanargmax (first_diffs.map FV.fabs) with
    | none => FV.nan
    | some i => nanmedianF (first_diffs.eraseIdx i)
  else if k = 3 then nanmedianF first_diffs
  else if k = 2 then nanminF (first_diffs.map FV.fabs)
  else FV.nan

/-- Extract from a `[group][row][col]` stack the column of pixel `(r, c)`
along the group axis. -/
def pixCol (d : List (List (List FV))) (n r c : ℕ) : List FV :=
  (List.range n).map (fun g => (((d.getD g []).getD r []).getD c FV.nan))

/-- The 3-D branch of `calc_med_first_diffs`
(`twopoint_difference.py` lines 271-301).  Per pixel, `k ≥ 4` masks
the largest-absolute-value diff of that pixel's column and takes the
nan-median; `k = 3` takes the plain nan-median.  For `k = 2` the source
executes `median_diffs[row2, col2] = np.nanmin(two_slice)` where
`two_slice = first_diffs[:, row2, col2]` gathers the columns of every
`k = 2` pixel: a single global minimum (of the signed values, no absolute
value) is assigned to all such pixels.  `k < 2` pixels get NaN. -/
def calc_med_first_diffs_3d (first_diffs : List (List (List FV))) :
    List (List FV) :=
  let ngroups := first_diffs.length
  let nrows := (first_diffs.getD 0 []).length
  let ncols := ((first_diffs.getD 0 []).getD 0 []).length
  let col := fun r c => pixCol first_diffs ngroups r c
  let kOf := fun r c => ngroups - nanCount (col r c)
  let twoSlice :=
    ((List.range nrows).map (fun r =>
      ((List.range ncols).filter (fun c => kOf r c = 2)).map (col r))).flatten.flatten
  let twoMin := nanminF twoSlice
  (List.range nrows).map (fun r =>
    (List.range ncols).map (fun c =>
      let k := kOf r c
      if 4 ≤ k then
        match nanargmax ((col r c).map FV.fabs) with
        | none => FV.nan
        | some i => nanmedianF ((col r c).set i FV.nan)
      else if k = 3 then nanmedianF (col r c)
      else if k = 2 then twoMin
      else FV.nan))

/-- Nested-list array types, indexed like the NumPy arrays. -/
abbrev Arr2 (α : Type) := List (List α)

/-- See `Arr2`. -/
abbrev Arr3 (α : Type) := List (List (List α))

/-- See `Arr2`. -/
abbrev Arr4 (α : Type) := List (List (List (List α)))

/-- Element read of a 2-D array with a default for out-of-range indices. -/
def get2 {α : Type} (a : Arr2 α) (r c : ℕ) (d : α) : α :=
  (a.getD r []).getD c d

/-- Element read of a 3-D array with a default for out-of-range indices. -/
def get3 {α : Type} (a : Arr3 α) (g r c : ℕ) (d : α) : α :=
  ((a.getD g []).getD r []).getD c d

/-- Element read of a 4-D array with a default for out-of-range indices. -/
def get4 {α : Type} (a : Arr4 α) (i g r c : ℕ) (d : α) : α :=
  (((a.getD i []).getD g []).getD r []).getD c d

/-- `utils.py` line 14: the sentinel variance. -/
def LARGE_VARIANCE : ℚ := 100000000

/-- `segs_beg_3_m1` (`utils.py` lines 565-568): copy the segment length,
subtract 1 where it exceeds 1, then floor the result at 1. -/
def segs_m1 (n : ℕ) : ℕ :=
  if (if 1 < n then n - 1 else n) < 1 then 1 else (if 1 < n then n - 1 else n)

/-- `den_p3` of `calc_slope_vars` (`utils.py` line 581), per pixel and
segment: the reciprocal of the denominator of the Poisson variance. -/
def calc_slope_vars_den_p (group_time gain : ℚ) (n : ℕ) : ℚ :=
  1 / (group_time * gain * (segs_m1 n : ℚ))

/-- `num_r3` of `calc_slope_vars` (`utils.py` line 586), per pixel: the
numerator of the read-noise variance. -/
def calc_slope_vars_num_r (rn group_time : ℚ) : ℚ :=
  12 * (rn / group_time) ^ 2

/-- `den_r3` of `calc_slope_vars` (`utils.py` lines 598-607), per pixel
and segment: initialised to `1/6` everywhere and overwritten with
`1/(n^3 - n)` where the segment length exceeds 1. -/
def calc_slope_vars_den_r (n : ℕ) : ℚ :=
  if 1 < n then 1 / ((n : ℚ) ^ 3 - (n : ℚ)) else 1 / 6

/-- Element-wise boolean-mask assignment `a[sat > 0] = f(a[sat > 0])`,
the shape shared by every statement of `fix_sat_ramps`. -/
def maskApply3 {α : Type} (sat : Arr3 ℕ) (f : α → α) (a : Arr3 α) : Arr3 α :=
  List.zipWith
    (fun sp ap =>
      List.zipWith
        (fun sr ar => List.zipWith (fun s x => if 0 < s then f x else x) sr ar)
        sp ap)
    sat a

/-- `fix_sat_ramps` (`utils.py` lines 1185-1243): where the pixel's
initial group is saturated, set `var_p3` and `var_both3` to
`LARGE_VARIANCE`, the slope to 0, and OR `DO_NOT_USE` into the
integration DQ.  Its variance parameters are, per its own docstring, the
Poisson-variance cube and the *combined* (Poisson plus read noise)
variance cube; no read-noise-only cube is an argument. -/
def fix_sat_ramps (dnuFlag : ℕ) (sat_0th : Arr3 ℕ)
    (var_p3 var_both3 slope_int : Arr3 ℚ) (dq_int : Arr3 ℕ) :
    Arr3 ℚ × Arr3 ℚ × Arr3 ℚ × Arr3 ℕ :=
  (maskApply3 sat_0th (fun _ => LARGE_VARIANCE) var_p3,
   maskApply3 sat_0th (fun _ => LARGE_VARIANCE) var_both3,
   maskApply3 sat_0th (fun _ => 0) slope_int,
   maskApply3 sat_0th (fun x => x ||| dnuFlag) dq_int)

/-- The integration-level product record (spec section 3,
`IntegrationResult`). -/
structure IntegRes where
  slope : Arr3 ℚ
  varPoisson : Arr3 ℚ
  varRead : Arr3 ℚ
  varBoth : Arr3 ℚ
  dq : Arr3 ℕ
deriving DecidableEq

/-- Modelled from the spec: the saturation-fixup stage of the pipeline.
The caller of `fix_sat_ramps` lives in `ols_fit.py`, which is not under
`src/`; per the spec's data flow (SaturationFixups run on the
IntegrationCombiner's product) it hands the integration-level product's
cubes to `fix_sat_ramps`.  The bindings follow the source function's own
parameter docstrings: `var_p3` is the Poisson-variance cube and
`var_both3` the combined-variance cube; the record's read-noise cube is
not an argument of `fix_sat_ramps` and therefore passes through. -/
def fixupStage (dnuFlag : ℕ) (sat_0th : Arr3 ℕ) (res : IntegRes) : IntegRes :=
  let out := fix_sat_ramps dnuFlag sat_0th res.varPoisson res.varBoth res.slope res.dq
  { res with
      varPoisson := out.1
      varBoth := out.2.1
      slope := out.2.2.1
      dq := out.2.2.2 }

/-- Equality of the shapes of two 3-D nested-list arrays. -/
def shape3Eq {α β : Type} (a : Arr3 α) (b : Arr3 β) : Prop :=
  a.length = b.length
  ∧ ∀ i < a.length,
      (a.getD i []).length = (b.getD i []).length
      ∧ ∀ j < (a.getD i []).length,
          ((a.getD i []).getD j []).length = ((b.getD i []).getD j []).length

instance {α β : Type} (a : Arr3 α) (b : Arr3 β) : Decidable (shape3Eq a b) := by
  unfold shape3Eq
  infer_instance

/-- Left fold of bitwise OR from 0, the model of
`np.bitwise_or.reduce(..., axis=0)` at one pixel. -/
def orReduce (l : List ℕ) : ℕ := l.foldl (fun x y => x ||| y) 0

/-- `do_all_sat` (`utils.py` lines 1246-1336): primary product with
`SATURATED | DO_NOT_USE` ORed into the pixel DQ and zero-valued data,
variance and error images; for more than one integration, an
integration product whose DQ is the per-integration OR of the group DQ
cube with `DO_NOT_USE` ORed in, and zero-valued data, variances and
error (`int_times` is `None`; the optional-results branch is not
referenced by any claim and is omitted). -/
def do_all_sat (satFlag dnuFlag : ℕ) (pixeldq : Arr2 ℕ) (groupdq : Arr4 ℕ)
    (nrows ncols n_int : ℕ) :
    (Arr2 ℚ × Arr2 ℕ × Arr2 ℚ × Arr2 ℚ × Arr2 ℚ)
      × Option (Arr3 ℚ × Arr3 ℕ × Arr3 ℚ × Arr3 ℚ × Arr3 ℚ) :=
  let pixeldq2 := pixeldq.map (fun row => row.map (fun x => (x ||| satFlag) ||| dnuFlag))
  let zeros2 : Arr2 ℚ := List.replicate nrows (List.replicate ncols (0 : ℚ))
  let image_info := (zeros2, pixeldq2, zeros2, zeros2, zeros2)
  let integ_info :=
    if 1 < n_int then
      let m0 := groupdq.length
      let m2 := ((groupdq.getD 0 []).getD 0 []).length
      let m3 := (((groupdq.getD 0 []).getD 0 []).getD 0 []).length
      let dq3 : Arr3 ℕ :=
        (List.range m0).map (fun ii =>
          (List.range m2).map (fun r =>
            (List.range m3).map (fun c =>
              (if ii < n_int then
                orReduce ((List.range ((groupdq.getD ii []).length)).map
                  (fun g => get4 groupdq ii g r c 0))
               else 0) ||| dnuFlag)))
      let zeros3 : Arr3 ℚ :=
        List.replicate n_int (List.replicate nrows (List.replicate ncols (0 : ℚ)))
      some (zeros3, dq3, zeros3, zeros3, zeros3)
    else none
  (image_info, integ_info)

/-- Element-wise bitwise OR of two 2-D arrays. -/
def or2 (a b : Arr2 ℕ) : Arr2 ℕ :=
  List.zipWith (List.zipWith (fun x y => x ||| y)) a b

/-- `dq_compress_final` (`utils.py` lines 1393-1432): OR the
integration-level DQ planes together (`for jj in range(1, n_int)`), then
clear the DO_NOT_USE flag at every pixel for which the number of
integrations having DO_NOT_USE set is smaller than the total number of
integrations (`np.uint32(~dnu_flag)` is the 32-bit complement, i.e. XOR
with `0xFFFFFFFF`). -/
def dq_compress_final (dq_int : List (Arr2 ℕ)) (n_int : ℕ) (dnuFlag : ℕ) :
    Arr2 ℕ :=
  let f_dq :=
    ((List.range' 1 (n_int - 1)).map (fun jj => dq_int.getD jj [])).foldl or2
      (dq_int.getD 0 [])
  let nints := dq_int.length
  let dnuSum := fun r c =>
    ((List.range nints).filter
      (fun jj => decide (0 < (get2 (dq_int.getD jj []) r c 0) &&& dnuFlag))).length
  (List.range f_dq.length).map (fun r =>
    (List.range ((f_dq.getD r []).length)).map (fun c =>
      if dnuSum r c < nints then (get2 f_dq r c 0) &&& (4294967295 ^^^ dnuFlag)
      else get2 f_dq r c 0))

/-- Data masking at the start of each integration of `find_crs`
(`twopoint_difference.py` lines 87-89): samples whose group DQ has
SATURATED or DO_NOT_USE set become NaN. -/
def maskedDat (SAT DNU : ℕ) (dat2 : Arr3 ℚ) (gdqI : Arr3 ℕ)
    (ngroups nrows ncols : ℕ) : Arr3 FV :=
  (List.range ngroups).map (fun g =>
    (List.range nrows).map (fun r =>
      (List.range ncols).map (fun c =>
        if get3 gdqI g r c 0 &&& SAT ≠ 0 ∨ get3 gdqI g r c 0 &&& DNU ≠ 0
        then FV.nan else FV.fin (get3 dat2 g r c 0))))

/-- `np.diff(dat, axis=0)` (`twopoint_difference.py` line 93). -/
def firstDiffs (dat : Arr3 FV) (ndiffs nrows ncols : ℕ) : Arr3 FV :=
  (List.range ndiffs).map (fun g =>
    (List.range nrows).map (fun r =>
      (List.range ncols).map (fun c =>
        FV.sub (get3 dat (g + 1) r c FV.nan) (get3 dat g r c FV.nan))))

/-- `sigma` of `find_crs` (`twopoint_difference.py` lines 99-102):
`sqrt(|median| + readnoise^2 / nframes)`, with exact zeros replaced by
NaN so zero-read-noise pixels are not flagged. -/
def sigmaArr (sq : ℚ → ℚ) (median_diffs : Arr2 FV) (rn2 : Arr2 ℚ)
    (nframes nrows ncols : ℕ) : Arr2 FV :=
  (List.range nrows).map (fun r =>
    (List.range ncols).map (fun c =>
      let s := FV.sqrtF sq (FV.add (FV.fabs (get2 median_diffs r c FV.nan))
        (FV.fdiv (FV.fin (get2 rn2 r c 0)) (FV.fin (natQ nframes))))
      if s = FV.fin 0 then FV.nan else s))

/-- `ratio` of `find_crs` (`twopoint_difference.py` line 107):
`|first_diffs - median| / sigma`. -/
def ratioArr (fd : Arr3 FV) (median_diffs : Arr2 FV) (sigma : Arr2 FV)
    (ndiffs nrows ncols : ℕ) : Arr3 FV :=
  (List.range ndiffs).map (fun g =>
    (List.range nrows).map (fun r =>
      (List.range ncols).map (fun c =>
        FV.fdiv (FV.fabs (FV.sub (get3 fd g r c FV.nan)
          (get2 median_diffs r c FV.nan))) (get2 sigma r c FV.nan))))

/-- The while loop of the per-pixel iterative refinement
(`twopoint_difference.py` lines 151-175), with the masked diffs and the
CR mask as state.  The loop flags a fresh diff index at every further
turn, so `ndiffs + 2` turns of fuel are never exhausted; an all-NaN
`nanargmax` argument is NumPy's `ValueError`, propagated as `none`. -/
def iterLoop (sq : ℚ → ℚ) (rn2 : ℚ) (nframes ndiffs : ℕ)
    (normal three two : ℚ) :
    ℕ → List FV → List Bool → Option (List Bool)
  | 0, _, mask => some mask
  | fuel + 1, diffs, mask =>
      if 2 < ndiffs - nanCount diffs then
        let diffs' := List.zipWith (fun d b => if b then d else FV.nan) diffs mask
        let m := calc_med_first_diffs diffs'
        let s := FV.sqrtF sq (FV.add (FV.fabs m)
          (FV.fdiv (FV.fin rn2) (FV.fin (natQ nframes))))
        let ratios := diffs'.map (fun d => FV.fdiv (FV.fabs (FV.sub d m)) s)
        let k := ndiffs - nanCount diffs'
        let rej := if k = 3 then three else if k = 2 then two else normal
        match nanargmax ratios with
        | none => none
        | some idx =>
            if FV.flt (FV.fin rej) (ratios.getD idx FV.nan) then
              iterLoop sq rn2 nframes ndiffs normal three two fuel diffs'
                (mask.set idx false)
            else some mask
      else some mask

/-- The per-pixel refinement entry (`twopoint_difference.py` lines
131-151): flag the index of the largest phase-1 ratio and run the while
loop. -/
def pixLoop (sq : ℚ → ℚ) (rn2 : ℚ) (nframes ndiffs : ℕ)
    (normal three two : ℚ) (pixDiffs pixRatios : List FV) :
    Option (List Bool) :=
  match nanargmax pixRatios with
  | none => none
  | some i0 =>
      iterLoop sq rn2 nframes ndiffs normal three two (ndiffs + 2) pixDiffs
        ((List.replicate ndiffs true).set i0 false)

/-- OR a value into one element of a 3-D array (no-op out of bounds, as
the positions used are always in bounds for well-shaped inputs). -/
def updOr3 (a : Arr3 ℕ) (g r c v : ℕ) : Arr3 ℕ :=
  a.set g ((a.getD g []).set r (((a.getD g []).getD r []).set c
    ((((a.getD g []).getD r []).getD c 0) ||| v)))

/-- One OR-update: position and value. -/
def orUpd3 (a : Arr3 ℕ) (u : (ℕ × ℕ × ℕ) × ℕ) : Arr3 ℕ :=
  updOr3 a u.1.1 u.1.2.1 u.1.2.2 u.2

/-- A batch of OR-updates applied in order. -/
def applyUpds (a : Arr3 ℕ) (U : List ((ℕ × ℕ × ℕ) × ℕ)) : Arr3 ℕ :=
  U.foldl orUpd3 a

/-- The OR-updates of `gdq[integ, 1:, row, col] |= JUMP_DET * ~mask`
(`twopoint_difference.py` lines 177-180) for one pixel. -/
def maskUpds (JUMP ngroups r c : ℕ) (mask : List Bool) :
    List ((ℕ × ℕ × ℕ) × ℕ) :=
  (List.range (ngroups - 1)).map (fun i =>
    ((i + 1, r, c), if mask.getD i true then 0 else JUMP))

/-- Assignment (not OR) into one element of a 2-D array, as done to the
`row_below_gdq` / `row_above_gdq` planes. -/
def setVal2 (a : Arr2 ℕ) (g c v : ℕ) : Arr2 ℕ :=
  a.set g ((a.getD g []).set c v)

/-- Positions where JUMP_DET is set, in the C order of `np.where`
(group-major, then row, then column), over the array's own extent
(`twopoint_difference.py` line 183). -/
def jumpLocs (gdqP : Arr3 ℕ) (JUMP : ℕ) : List (ℕ × ℕ × ℕ) :=
  ((List.range gdqP.length).map (fun g =>
    ((List.range ((gdqP.getD g []).length)).map (fun r =>
      ((List.range (((gdqP.getD g []).getD r []).length)).filter
        (fun c => get3 gdqP g r c 0 &&& JUMP ≠ 0)).map (fun c =>
          (g, r, c)))).flatten)).flatten

/-- One step of the neighbour-flagging loop (`twopoint_difference.py`
lines 185-226).  The guard reads `ratio[cr_group - 1, ...]` with
Python's negative indexing: a flag on group 0 reads the *last* diff.
The `row_below_gdq` / `row_above_gdq` planes are `uint8`, so storing
the JUMP flag reduces it modulo 256. -/
def neighborStep (JUMP nrows ncols ndiffs : ℕ) (maxJ minJ : ℚ)
    (ratios : Arr3 FV) (st : Arr3 ℕ × Arr2 ℕ × Arr2 ℕ) (p : ℕ × ℕ × ℕ) :
    Arr3 ℕ × Arr2 ℕ × Arr2 ℕ :=
  let g := p.1
  let r := p.2.1
  let c := p.2.2
  let rv := get3 ratios (if g = 0 then ndiffs - 1 else g - 1) r c FV.nan
  if FV.flt rv (FV.fin maxJ) && FV.flt (FV.fin minJ) rv then
    let gdq1 := if r ≠ 0 then updOr3 st.1 g (r - 1) c JUMP else st.1
    let rowB1 := if r ≠ 0 then st.2.1 else setVal2 st.2.1 g c (JUMP % 256)
    let gdq2 := if r ≠ nrows - 1 then updOr3 gdq1 g (r + 1) c JUMP else gdq1
    let rowA1 := if r ≠ nrows - 1 then st.2.2 else setVal2 st.2.2 g c (JUMP % 256)
    let gdq3 := if c ≠ 0 then updOr3 gdq2 g r (c - 1) JUMP else gdq2
    let gdq4 := if c ≠ ncols - 1 then updOr3 gdq3 g r (c + 1) JUMP else gdq3
    (gdq4, rowB1, rowA1)
  else st

/-- `read_noise ** 2` (`twopoint_difference.py` line 75). -/
def rn2Of (read_noise : Arr2 ℚ) : Arr2 ℚ :=
  read_noise.map (fun row => row.map (fun x => x * x))

/-- The first-difference stack of one integration after masking
(`twopoint_difference.py` lines 87-93). -/
def fdOf (SAT DNU : ℕ) (dat2 : Arr3 ℚ) (gdqI : Arr3 ℕ)
    (ngroups nrows ncols : ℕ) : Arr3 FV :=
  firstDiffs (maskedDat SAT DNU dat2 gdqI ngroups nrows ncols)
    (ngroups - 1) nrows ncols

/-- The phase-1 ratio stack of one integration
(`twopoint_difference.py` lines 96-107). -/
def rtOf (sq : ℚ → ℚ) (SAT DNU : ℕ) (nframes : ℕ) (read_noise : Arr2 ℚ)
    (ngroups nrows ncols : ℕ) (dat2 : Arr3 ℚ) (gdqI : Arr3 ℕ) : Arr3 FV :=
  ratioArr (fdOf SAT DNU dat2 gdqI ngroups nrows ncols)
    (calc_med_first_diffs_3d (fdOf SAT DNU dat2 gdqI ngroups nrows ncols))
    (sigmaArr sq
      (calc_med_first_diffs_3d (fdOf SAT DNU dat2 gdqI ngroups nrows ncols))
      (rn2Of read_noise) nframes nrows ncols)
    (ngroups - 1) nrows ncols

/-- The pixels with an initial detection, in the `np.where` row-major
order of the `k >= 4`, `k = 3`, `k = 2` classes concatenated in that
order (`twopoint_difference.py` lines 114-124). -/
def allCrsOf (sq : ℚ → ℚ) (SAT DNU : ℕ) (nframes : ℕ)
    (normal two three : ℚ) (read_noise : Arr2 ℚ)
    (ngroups nrows ncols : ℕ) (dat2 : Arr3 ℚ) (gdqI : Arr3 ℕ) :
    List (ℕ × ℕ) :=
  let ndiffs := ngroups - 1
  let fd := fdOf SAT DNU dat2 gdqI ngroups nrows ncols
  let rt := rtOf sq SAT DNU nframes read_noise ngroups nrows ncols dat2 gdqI
  let nUnusable := fun r c => nanCount (pixCol fd ndiffs r c)
  let maxR := fun r c => nanmaxF (pixCol rt ndiffs r c)
  let sel := fun (cls : ℕ → Bool) (thresh : ℚ) =>
    ((List.range nrows).map (fun r =>
      ((List.range ncols).filter (fun c =>
        cls (ndiffs - nUnusable r c) && FV.flt (FV.fin thresh) (maxR r c))).map
        (fun c => (r, c)))).flatten
  sel (fun k => decide (4 ≤ k)) normal
    ++ sel (fun k => decide (k = 3)) three
    ++ sel (fun k => decide (k = 2)) two

/-- The per-pixel refinement run over every initially detected pixel
(`twopoint_difference.py` lines 131-175); `none` when any pixel's loop
hits the all-NaN `nanargmax`. -/
def crMasks (sq : ℚ → ℚ) (SAT DNU : ℕ) (nframes : ℕ)
    (normal two three : ℚ) (read_noise : Arr2 ℚ)
    (ngroups nrows ncols : ℕ) (dat2 : Arr3 ℚ) (gdqI : Arr3 ℕ) :
    Option (List ((ℕ × ℕ) × List Bool)) :=
  (allCrsOf sq SAT DNU nframes normal two three read_noise ngroups nrows ncols
    dat2 gdqI).mapM (fun rc =>
      (pixLoop sq (get2 (rn2Of read_noise) rc.1 rc.2 0) nframes (ngroups - 1)
        normal three two
        (pixCol (fdOf SAT DNU dat2 gdqI ngroups nrows ncols) (ngroups - 1)
          rc.1 rc.2)
        (pixCol (rtOf sq SAT DNU nframes read_noise ngroups nrows ncols dat2 gdqI)
          (ngroups - 1) rc.1 rc.2)).map (fun msk => (rc, msk)))

/-- The primary JUMP_DET flags ORed into the integration's group DQ
(`twopoint_difference.py` lines 177-180). -/
def primaryGdq (JUMP ngroups : ℕ) (gdqI : Arr3 ℕ)
    (masks : List ((ℕ × ℕ) × List Bool)) : Arr3 ℕ :=
  applyUpds gdqI
    (masks.map (fun q => maskUpds JUMP ngroups q.1.1 q.1.2 q.2)).flatten

/-- An all-zero `(ngroups, ncols)` plane (`np.zeros`). -/
def zeros2N (ngroups ncols : ℕ) : Arr2 ℕ :=
  (List.range ngroups).map (fun _ => (List.range ncols).map (fun _ => 0))

/-- The tail of one integration of `find_crs` after the per-pixel
refinement has produced the CR masks: OR the JUMP_DET flags into the
group DQ and, when enabled, flag the four neighbours of each flagged
group (`twopoint_difference.py` lines 177-226). -/
def finishInteg (JUMP ngroups nrows ncols : ℕ) (maxJ minJ : ℚ)
    (flag4 : Bool) (rt : Arr3 FV) (gdqI : Arr3 ℕ)
    (masks : List ((ℕ × ℕ) × List Bool)) : Arr3 ℕ × Arr2 ℕ × Arr2 ℕ :=
  if flag4 then
    (jumpLocs (primaryGdq JUMP ngroups gdqI masks) JUMP).foldl
      (neighborStep JUMP nrows ncols (ngroups - 1) maxJ minJ rt)
      (primaryGdq JUMP ngroups gdqI masks, zeros2N ngroups ncols,
        zeros2N ngroups ncols)
  else (primaryGdq JUMP ngroups gdqI masks, zeros2N ngroups ncols,
    zeros2N ngroups ncols)

/-- One integration of `find_crs` (`twopoint_difference.py` lines
81-226): mask the data, take first differences, compute per-pixel
median, sigma and ratios, select and refine the detected pixels, OR the
JUMP_DET flags in, and optionally flag the four neighbours.  A `none`
is NumPy's `ValueError` from `nanargmax` on an all-NaN slice. -/
def processInteg (sq : ℚ → ℚ) (SAT DNU JUMP : ℕ) (nframes : ℕ)
    (normal two three : ℚ) (flag4 : Bool) (maxJ minJ : ℚ)
    (read_noise : Arr2 ℚ) (ngroups nrows ncols : ℕ)
    (dat2 : Arr3 ℚ) (gdqI : Arr3 ℕ) : Option (Arr3 ℕ × Arr2 ℕ × Arr2 ℕ) :=
  match crMasks sq SAT DNU nframes normal two three read_noise ngroups nrows
      ncols dat2 gdqI with
  | none => none
  | some masks =>
      some (finishInteg JUMP ngroups nrows ncols maxJ minJ flag4
        (rtOf sq SAT DNU nframes read_noise ngroups nrows ncols dat2 gdqI)
        gdqI masks)

/-- `find_crs` (`twopoint_difference.py` lines 4-227): copy the inputs,
process every integration, and return the updated group DQ together with
the spill-over row planes.  Shapes are taken from the data cube, as in
the source (`nints, ngroups, nrows, ncols = dataa.shape`); group-DQ
planes beyond the data's integration count pass through unchanged. -/
def find_crs (sq : ℚ → ℚ) (dataa : Arr4 ℚ) (group_dq : Arr4 ℕ)
    (read_noise : Arr2 ℚ)
    (normal_rej_thresh two_diff_rej_thresh three_diff_rej_thresh : ℚ)
    (nframes : ℕ) (flag_4_neighbors : Bool)
    (max_jump_to_flag_neighbors min_jump_to_flag_neighbors : ℚ)
    (dnuFlag satFlag jumpFlag : ℕ) :
    Option (Arr4 ℕ × Arr3 ℕ × Arr3 ℕ) :=
  let nints := dataa.length
  let ngroups := (dataa.getD 0 []).length
  let nrows := ((dataa.getD 0 []).getD 0 []).length
  let ncols := (((dataa.getD 0 []).getD 0 []).getD 0 []).length
  match (List.range nints).mapM (fun i =>
      processInteg sq satFlag dnuFlag jumpFlag nframes
        normal_rej_thresh two_diff_rej_thresh three_diff_rej_thresh
        flag_4_neighbors max_jump_to_flag_neighbors
        min_jump_to_flag_neighbors read_noise ngroups nrows ncols
        (dataa.getD i []) (group_dq.getD i [])) with
  | none => none
  | some results =>
      some (results.map (fun t => t.1) ++ group_dq.drop nints,
            results.map (fun t => t.2.1),
            results.map (fun t => t.2.2))

/-- Pointwise flag inclusion between two 3-D DQ arrays. -/
def Mon3 (a b : Arr3 ℕ) : Prop :=
  ∀ g r c n, (get3 a g r c 0).testBit n = true → (get3 b g r c 0).testBit n = true

/-- The effect of `ramp_fit_data` (`ramp_fit.py` lines 203-222) on the
four caller-owned arrays it receives.  In the OLS branch the line
`readnoise_2d *= gain_2d / np.sqrt(2. * nframes)` is an *in-place* NumPy
multiply: it writes the scaled values through the caller's read-noise
reference before delegating to `ols_fit.ols_ramp_fit_multi`.  The data
cube, the group-DQ cube and the gain array are not written by this
function (the GLS branch is a stub that touches nothing), and `find_crs`
(`twopoint_difference.py` lines 66-68) copies its data and group-DQ
inputs before any mutation, so jump detection leaves the caller's arrays
unchanged.  The Boolean parameter stands for the source's branch test
`algorithm.upper() == "GLS"`. -/
def ramp_fit_data_arrays (sq : ℚ → ℚ) (algorithm_is_GLS : Bool)
    (data : Arr4 ℚ) (gdq : Arr4 ℕ) (readnoise_2d gain_2d : Arr2 ℚ)
    (nframes : ℕ) : Arr4 ℚ × Arr4 ℕ × Arr2 ℚ × Arr2 ℚ :=
  if algorithm_is_GLS then (data, gdq, readnoise_2d, gain_2d)
  else
    (data, gdq,
     List.zipWith
       (fun rrow grow =>
         List.zipWith (fun r g => r * (g / sq (2 * natQ nframes))) rrow grow)
       readnoise_2d gain_2d,
     gain_2d)

/-- Removal of segment `i` from one ramp's length list, as executed by
`segs_beg_3[ii_0:-1, wh_y, wh_x] = segs_beg_3[ii_0+1:, wh_y, wh_x]`
followed by `segs_beg_3[-1, wh_y, wh_x] = 0` (`utils.py` lines
1171-1175): the later entries shift up and a zero fills the end. -/
def removeSeg (r : List ℕ) (i : ℕ) : List ℕ :=
  (r.take i ++ r.drop (i + 1)) ++ [0]

/-- One `(ii_0, ii_1)` check of the doubly nested sweep of
`remove_bad_singles` for one ramp: if the ramp has a single-group segment
at `ii_0` and a non-empty segment at `ii_1`, remove the single-group
segment (`utils.py` lines 1164-1175).  The pair list already excludes
`ii_0 = ii_1` (the `continue`). -/
def stepPair (p : ℕ × ℕ) (r : List ℕ) : List ℕ :=
  if r.getD p.1 0 = 1 ∧ 0 < r.getD p.2 0 then removeSeg r p.1 else r

/-- The `(ii_0, ii_1)` pairs in the order of the double loop of
`remove_bad_singles`, skipping the diagonal. -/
def sweepPairs (maxSeg : ℕ) : List (ℕ × ℕ) :=
  ((List.range maxSeg).map (fun i =>
    ((List.range maxSeg).filter (fun j => j ≠ i)).map (fun j => (i, j)))).flatten

/-- One full double-loop sweep applied to one ramp.  The vectorised
statements act on all matching ramps at once, but each ramp's update
depends only on that ramp's own entries, so the sweep is the same
per-ramp fold for every ramp. -/
def sweepRamp (maxSeg : ℕ) (r : List ℕ) : List ℕ :=
  (sweepPairs maxSeg).foldl (fun r p => stepPair p r) r

/-- `tot_num_single_grp_ramps` (`utils.py` lines 1148-1149 and
1179-1180): the number of `(segment, y, x)` entries equal to 1 lying in
ramps whose summed segment lengths exceed 1.  The ramp lists have
`max_seg` entries; `take` makes the count (and hence termination)
well-defined for any list. -/
def countSingles (maxSeg : ℕ) (s : List (List ℕ)) : ℕ :=
  (s.map (fun r =>
    if 1 < (r.take maxSeg).sum then (r.take maxSeg).count 1 else 0)).sum

/-- Total of all segment lengths, the termination measure of the while
loop. -/
def totalSum (s : List (List ℕ)) : ℕ := (s.map List.sum).sum

/-- The while loop of `remove_bad_singles` (`utils.py` lines 1123-1182)
as a step-indexed iteration: while any ramp still holds a single-group
segment next to other segments, run the doubly nested sweep over segment
pairs.  The counter is recomputed after each in-sweep removal, and at
every check of the while condition it equals the count of the current
state, so the loop iterates the full sweep guarded by the current count.
The source loop carries no iteration budget; the budget here only
truncates the iteration, and the termination theorem shows the budget
`totalSum s + 1` chosen below is never exhausted (the guard is false on
the returned state, which could not happen had the source loop failed to
exit within the budget). -/
def removeBadSinglesLoop (maxSeg : ℕ) : ℕ → List (List ℕ) → List (List ℕ)
  | 0, s => s
  | fuel + 1, s =>
      if 0 < countSingles maxSeg s then
        removeBadSinglesLoop maxSeg fuel (s.map (sweepRamp maxSeg))
      else s

/-- `remove_bad_singles`: the while loop entered at the input state with
the iteration budget `totalSum s + 1`. -/
def remove_bad_singles (maxSeg : ℕ) (s : List (List ℕ)) : List (List ℕ) :=
  removeBadSinglesLoop maxSeg (totalSum s + 1) s

/-- The integer square root never falls below its accumulator. -/
theorem isqrtAux_le (n : ℕ) :
    ∀ (fuel k : ℕ), k ≤ isqrtAux n fuel k := by
  intro fuel
  induction fuel with
  | zero => intro k; exact Nat.le_refl _
  | succ m ih =>
      intro k
      unfold isqrtAux
      split_ifs with h
      · exact Nat.le_trans (Nat.le_succ k) (ih (k + 1))
      · exact Nat.le_refl _

/-- The model square root of a positive rational is positive (the
property of `np.sqrt` that the claims need). -/
theorem sqrtQ_pos (q : ℚ) (h : 0 < q) : 0 < sqrtQ q := by
  unfold sqrtQ
  rw [if_neg (not_le.mpr h)]
  rw [Rat.mkRat_eq_div]
  apply div_pos
  · have hnum : 0 < q.num := Rat.num_pos.mpr h
    have hden : 0 < q.den := q.den_pos
    have hm : 1 ≤ q.num.toNat * q.den := by
      have h1 : 1 ≤ q.num.toNat := by omega
      exact Nat.le_trans (by omega) (Nat.mul_le_mul h1 hden)
    have hge : 1 ≤ isqrt (q.num.toNat * q.den) := by
      unfold isqrt
      rcases Nat.exists_eq_succ_of_ne_zero
        (show q.num.toNat * q.den ≠ 0 by omega) with ⟨m, hm'⟩
      rw [hm']
      unfold isqrtAux
      rw [if_pos (by omega)]
      exact isqrtAux_le _ m 1
    have hq : (0 : ℚ) < ((isqrt (q.num.toNat * q.den) : ℤ) : ℚ) := by
      exact_mod_cast Nat.lt_of_lt_of_le Nat.zero_lt_one hge
    exact hq
  · exact_mod_cast q.den_pos

/-- Reading a `zipWith` at an in-bounds index reads both arguments. -/
theorem getD_zipWith {α β γ : Type} (f : α → β → γ) :
    ∀ (a : List α) (b : List β) (i : ℕ) (da : α) (db : β) (dc : γ),
      i < a.length → i < b.length →
      (List.zipWith f a b).getD i dc = f (a.getD i da) (b.getD i db) := by
  intro a
  induction a with
  | nil => intro b i da db dc h1 h2; simp at h1
  | cons x xs ih =>
      intro b i da db dc h1 h2
      cases b with
      | nil => simp at h2
      | cons y ys =>
          cases i with
          | zero => rfl
          | succ n =>
              simp only [List.zipWith_cons_cons, List.getD_cons_succ]
              exact ih ys n da db dc (by simpa using h1) (by simpa using h2)

/-- Reading a mapped range at an in-bounds index. -/
theorem getD_range_map {α : Type} (f : ℕ → α) (d : α) :
    ∀ (n i : ℕ), i < n → ((List.range n).map f).getD i d = f i := by
  intro n i h
  rw [List.getD_eq_getElem?_getD]
  rw [List.getElem?_map]
  rw [List.getElem?_range h]
  rfl

/-- Reading a replicated list at an in-bounds index. -/
theorem getD_replicate {α : Type} (a d : α) (n i : ℕ) (h : i < n) :
    (List.replicate n a).getD i d = a := by
  rw [List.getD_eq_getElem?_getD, List.getElem?_replicate, if_pos h]
  rfl

/-- Reading a row-and-element mapped 2-D array at an in-bounds position. -/
theorem get2_map_map {α β : Type} (f : α → β) :
    ∀ (a : Arr2 α) (r c : ℕ) (d : α) (d' : β),
      r < a.length → c < (a.getD r []).length →
      get2 (a.map (fun row => row.map f)) r c d' = f (get2 a r c d) := by
  intro a
  induction a with
  | nil => intro r c d d' hr hc; simp at hr
  | cons x xs ih =>
      intro r c d d' hr hc
      cases r with
      | zero =>
          unfold get2
          simp only [List.map_cons, List.getD_cons_zero]
          simp only [List.getD_cons_zero] at hc
          rw [List.getD_eq_getElem?_getD, List.getElem?_map,
            List.getElem?_eq_getElem hc]
          simp only [Option.map_some', Option.getD_some]
          rw [List.getD_eq_getElem?_getD, List.getElem?_eq_getElem hc]
          rfl
      | succ n =>
          unfold get2
          simp only [List.map_cons, List.getD_cons_succ]
          exact ih n c d d' (by simpa using hr) (by simpa using hc)

/-- A bit of a left fold of bitwise ORs is a bit of the start or of one
of the elements. -/
theorem testBit_foldl_or (b : ℕ) :
    ∀ (l : List ℕ) (a : ℕ),
      (l.foldl (fun x y => x ||| y) a).testBit b
        = (a.testBit b || l.any (fun x => x.testBit b)) := by
  intro l
  induction l with
  | nil => intro a; simp
  | cons x xs ih =>
      intro a
      simp only [List.foldl_cons, List.any_cons, ih, Nat.testBit_or]
      rw [Bool.or_assoc]

/-- Pointwise description of the boolean-mask assignment. -/
theorem get3_maskApply3 {α : Type} (sat : Arr3 ℕ) (f : α → α) (a : Arr3 α)
    (i j k : ℕ) (d : α) (hs : shape3Eq sat a)
    (hi : i < sat.length) (hj : j < (sat.getD i []).length)
    (hk : k < ((sat.getD i []).getD j []).length) :
    get3 (maskApply3 sat f a) i j k d
      = if 0 < get3 sat i j k 0 then f (get3 a i j k d) else get3 a i j k d := by
  obtain ⟨h0, h1⟩ := hs
  obtain ⟨h2, h3⟩ := h1 i hi
  unfold maskApply3 get3
  rw [getD_zipWith _ sat a i [] [] [] hi (by omega)]
  rw [getD_zipWith _ _ _ j [] [] [] hj (by omega)]
  rw [getD_zipWith _ _ _ k 0 d d hk (by rw [← h3 j hj]; exact hk)]

/-- C2 (corrected): `fix_sat_ramps` does not touch any read-noise
variance cube — its variance arguments are, per its docstring, the
Poisson cube and the combined cube.  Concretely, for a single pixel whose
initial group is saturated, the fixup stage leaves the record's
read-noise variance at its old value `9` (while Poisson and combined go
to `LARGE_VARIANCE`, the slope to 0, and DQ gains `DO_NOT_USE`), so the
read-noise variance is not set to `LARGE_VARIANCE` as claimed. -/
theorem C2_fix_sat_ramps_counterexample :
    fixupStage 1 [[[1]]]
        ⟨[[[5]]], [[[7]]], [[[9]]], [[[11]]], [[[0]]]⟩
      = ⟨[[[0]]], [[[LARGE_VARIANCE]]], [[[9]]], [[[LARGE_VARIANCE]]], [[[1]]]⟩
    ∧ (9 : ℚ) ≠ LARGE_VARIANCE := by
  refine ⟨by decide, by decide⟩

/-- C2 (amended): for every pixel whose integration has its first group
flagged SATURATED, the saturation fixup forces the integration slope to
0, sets the Poisson variance and the *combined* (Poisson + read noise)
variance for that integration to LARGE_VARIANCE, and ORs DO_NOT_USE into
that integration's DQ; all other pixels' entries are unchanged, and the
read-noise variance cube is not an argument of `fix_sat_ramps` and passes
through the fixup stage identically. -/
theorem C2_fix_sat_ramps_amended
    (dnuFlag : ℕ) (sat : Arr3 ℕ) (res : IntegRes) (i j k : ℕ)
    (hsP : shape3Eq sat res.varPoisson) (hsB : shape3Eq sat res.varBoth)
    (hsS : shape3Eq sat res.slope) (hsD : shape3Eq sat res.dq)
    (hi : i < sat.length) (hj : j < (sat.getD i []).length)
    (hk : k < ((sat.getD i []).getD j []).length) :
    get3 (fixupStage dnuFlag sat res).varPoisson i j k 0
        = (if 0 < get3 sat i j k 0 then LARGE_VARIANCE
           else get3 res.varPoisson i j k 0)
    ∧ get3 (fixupStage dnuFlag sat res).varBoth i j k 0
        = (if 0 < get3 sat i j k 0 then LARGE_VARIANCE
           else get3 res.varBoth i j k 0)
    ∧ get3 (fixupStage dnuFlag sat res).slope i j k 0
        = (if 0 < get3 sat i j k 0 then 0 else get3 res.slope i j k 0)
    ∧ get3 (fixupStage dnuFlag sat res).dq i j k 0
        = (if 0 < get3 sat i j k 0 then get3 res.dq i j k 0 ||| dnuFlag
           else get3 res.dq i j k 0)
    ∧ (fixupStage dnuFlag sat res).varRead = res.varRead := by
  refine ⟨?_, ?_, ?_, ?_, rfl⟩
  · exact get3_maskApply3 sat _ res.varPoisson i j k 0 hsP hi hj hk
  · exact get3_maskApply3 sat _ res.varBoth i j k 0 hsB hi hj hk
  · exact get3_maskApply3 sat _ res.slope i j k 0 hsS hi hj hk
  · exact get3_maskApply3 sat _ res.dq i j k 0 hsD hi hj hk

/-- Witness for C2 (amended) at a concrete two-pixel integration with one
saturated pixel. -/
theorem C2_fix_sat_ramps_amended_witness :
    get3 (fixupStage 1 [[[1, 0]]]
        ⟨[[[5, 6]]], [[[7, 8]]], [[[9, 10]]], [[[11, 12]]], [[[0, 0]]]⟩).varPoisson
        0 0 0 0
      = (if 0 < get3 [[[1, 0]]] 0 0 0 0 then LARGE_VARIANCE
         else get3 [[[(7 : ℚ), 8]]] 0 0 0 0) := by
  exact (C2_fix_sat_ramps_amended 1 [[[1, 0]]]
    ⟨[[[5, 6]]], [[[7, 8]]], [[[9, 10]]], [[[11, 12]]], [[[0, 0]]]⟩ 0 0 0
    (by decide) (by decide) (by decide) (by decide)
    (by decide) (by decide) (by decide)).1

/-- C1: `calc_med_first_diffs` does not implement the per-pixel
small-sample policy on the 3-D path.  At the concrete stack whose two
pixels both have exactly two finite diffs — pixel (0,0) with diffs
`[10, 10, NaN]` and pixel (0,1) with diffs `[-50, 1, NaN]` — the 3-D
path assigns the single global signed minimum `-50` to *both* pixels,
whereas the claimed policy gives `10` for pixel (0,0) (as the 1-D path
indeed does), and the 1-D `k = 2` branch returns the minimum *absolute
value* `3` for `[-3, 5]` rather than the claimed entry `-3` of smaller
absolute value. -/
theorem C1_calc_med_first_diffs_small_sample :
    calc_med_first_diffs_3d
        [[[FV.fin 10, FV.fin (-50)]], [[FV.fin 10, FV.fin 1]], [[FV.nan, FV.nan]]]
      = [[FV.fin (-50), FV.fin (-50)]]
    ∧ calc_med_first_diffs [FV.fin 10, FV.fin 10, FV.nan] = FV.fin 10
    ∧ calc_med_first_diffs [FV.fin (-3), FV.fin 5] = FV.fin 3 := by
  refine ⟨by decide, by decide, by decide⟩

/-- `segs_beg_3_m1` computes exactly `max 1 (n - 1)`. -/
theorem segs_m1_eq_max (n : ℕ) : segs_m1 n = max 1 (n - 1) := by
  unfold segs_m1
  split_ifs <;> omega

/-- C9 (amended, n = 1 read-noise case included): the variance factors of
`calc_slope_vars`. -/
theorem C9_calc_slope_vars_factors (n : ℕ) (rn group_time gain : ℚ) :
    (2 ≤ n → calc_slope_vars_den_r n = 1 / ((n : ℚ) ^ 3 - (n : ℚ)))
    ∧ (n = 1 → calc_slope_vars_den_r n = 1 / 6)
    ∧ calc_slope_vars_num_r rn group_time = 12 * (rn / group_time) ^ 2
    ∧ calc_slope_vars_den_p group_time gain n
        = 1 / (group_time * gain * ((max 1 (n - 1) : ℕ) : ℚ)) := by
  refine ⟨?_, ?_, rfl, ?_⟩
  · intro h
    unfold calc_slope_vars_den_r
    rw [if_pos (by omega)]
  · intro h
    subst h
    simp [calc_slope_vars_den_r]
  · unfold calc_slope_vars_den_p
    rw [segs_m1_eq_max]

/-- C4 (corrected): for an all-saturated exposure (`SATURATED = 2`,
`DO_NOT_USE = 1`, two integrations of one group over a 1x1 image, every
group flagged `2`), `do_all_sat` returns well-formed zero-filled outputs
with the DQ markings — but the integration-level Poisson and read-noise
variances are zero-filled too, not `LARGE_VARIANCE` as claimed. -/
theorem C4_do_all_sat_counterexample :
    do_all_sat 2 1 [[0]] [[[[2]]], [[[2]]]] 1 1 2
      = (([[0]], [[3]], [[0]], [[0]], [[0]]),
         some ([[[0]], [[0]]], [[[3]], [[3]]],
               [[[0]], [[0]]], [[[0]], [[0]]], [[[0]], [[0]]]))
    ∧ (0 : ℚ) ≠ LARGE_VARIANCE := by
  refine ⟨rfl, by decide⟩

/-- C4 (amended): for an exposure in which every group of every
integration is flagged SATURATED (bit `sb`), `do_all_sat` returns
well-formed outputs: with at least two integrations the
integration-level product has zero data, zero Poisson variance, zero
read-noise variance and zero error, and a DQ containing both DO_NOT_USE
(bit `db`) and SATURATED for every pixel; the exposure-level product has
zero data and error with `SATURATED | DO_NOT_USE` ORed into the pixel
DQ. -/
theorem C4_do_all_sat_amended
    (sb db : ℕ) (pixeldq : Arr2 ℕ) (groupdq : Arr4 ℕ)
    (nrows ncols n_int : ℕ) (ii r c : ℕ)
    (hsat : ∀ i < groupdq.length, ∀ g < (groupdq.getD i []).length,
      (get4 groupdq i g r c 0).testBit sb = true)
    (hn : 2 ≤ n_int)
    (hii0 : ii < groupdq.length)
    (hg : 0 < (groupdq.getD ii []).length)
    (hr2 : r < ((groupdq.getD 0 []).getD 0 []).length)
    (hc2 : c < (((groupdq.getD 0 []).getD 0 []).getD 0 []).length)
    (hiin : ii < n_int)
    (hrn : r < nrows) (hcn : c < ncols)
    (hrp : r < pixeldq.length) (hcp : c < (pixeldq.getD r []).length) :
    ∃ integ, (do_all_sat (2 ^ sb) (2 ^ db) pixeldq groupdq nrows ncols n_int).2
        = some integ
      ∧ get3 integ.1 ii r c 0 = 0
      ∧ (get3 integ.2.1 ii r c 0).testBit sb = true
      ∧ (get3 integ.2.1 ii r c 0).testBit db = true
      ∧ get3 integ.2.2.1 ii r c 0 = 0
      ∧ get3 integ.2.2.2.1 ii r c 0 = 0
      ∧ get3 integ.2.2.2.2 ii r c 0 = 0
      ∧ get2 (do_all_sat (2 ^ sb) (2 ^ db) pixeldq groupdq nrows ncols n_int).1.1 r c 0 = 0
      ∧ get2 (do_all_sat (2 ^ sb) (2 ^ db) pixeldq groupdq nrows ncols n_int).1.2.2.2.2 r c 0 = 0
      ∧ get2 (do_all_sat (2 ^ sb) (2 ^ db) pixeldq groupdq nrows ncols n_int).1.2.1 r c 0
          = (get2 pixeldq r c 0 ||| 2 ^ sb) ||| 2 ^ db := by
  have hzero3 : ∀ ii' r' c', ii' < n_int → r' < nrows → c' < ncols →
      get3 (List.replicate n_int (List.replicate nrows
        (List.replicate ncols (0 : ℚ)))) ii' r' c' 0 = 0 := by
    intro ii' r' c' h1 h2 h3
    unfold get3
    rw [getD_replicate _ _ _ _ h1, getD_replicate _ _ _ _ h2,
      getD_replicate _ _ _ _ h3]
  have hsome : (do_all_sat (2 ^ sb) (2 ^ db) pixeldq groupdq nrows ncols n_int).2
      = some (List.replicate n_int (List.replicate nrows (List.replicate ncols (0 : ℚ))),
          (List.range groupdq.length).map (fun ii =>
            (List.range ((groupdq.getD 0 []).getD 0 []).length).map (fun r =>
              (List.range (((groupdq.getD 0 []).getD 0 []).getD 0 []).length).map (fun c =>
                (if ii < n_int then
                  orReduce ((List.range ((groupdq.getD ii []).length)).map
                    (fun g => get4 groupdq ii g r c 0))
                 else 0) ||| 2 ^ db))),
          List.replicate n_int (List.replicate nrows (List.replicate ncols (0 : ℚ))),
          List.replicate n_int (List.replicate nrows (List.replicate ncols (0 : ℚ))),
          List.replicate n_int (List.replicate nrows (List.replicate ncols (0 : ℚ)))) := by
    unfold do_all_sat
    simp only [if_pos (show 1 < n_int from by omega)]
  have himg : (do_all_sat (2 ^ sb) (2 ^ db) pixeldq groupdq nrows ncols n_int).1
      = (List.replicate nrows (List.replicate ncols (0 : ℚ)),
         pixeldq.map (fun row => row.map (fun x => (x ||| 2 ^ sb) ||| 2 ^ db)),
         List.replicate nrows (List.replicate ncols (0 : ℚ)),
         List.replicate nrows (List.replicate ncols (0 : ℚ)),
         List.replicate nrows (List.replicate ncols (0 : ℚ))) := rfl
  refine ⟨_, hsome, ?_, ?_, ?_, ?_, ?_, ?_, ?_, ?_, ?_⟩
  · exact hzero3 ii r c hiin hrn hcn
  · unfold get3
    rw [getD_range_map _ _ _ _ hii0, getD_range_map _ _ _ _ hr2,
      getD_range_map _ _ _ _ hc2]
    rw [Nat.testBit_or, if_pos hiin]
    have horb : (orReduce ((List.range ((groupdq.getD ii []).length)).map
        (fun g => get4 groupdq ii g r c 0))).testBit sb = true := by
      unfold orReduce
      rw [testBit_foldl_or]
      rw [List.any_map]
      have h0 : (0 : ℕ) ∈ List.range ((groupdq.getD ii []).length) := by
        rw [List.mem_range]; omega
      have hbit := hsat ii hii0 0 (by omega)
      simp only [Bool.or_eq_true, List.any_eq_true]
      right
      exact ⟨0, h0, hbit⟩
    rw [horb]
    rfl
  · unfold get3
    rw [getD_range_map _ _ _ _ hii0, getD_range_map _ _ _ _ hr2,
      getD_range_map _ _ _ _ hc2]
    rw [Nat.testBit_or]
    have hb : (Nat.testBit (2 ^ db) db) = true := by
      simp [Nat.testBit_two_pow_self]
    rw [hb]
    rw [Bool.or_true]
  · exact hzero3 ii r c hiin hrn hcn
  · exact hzero3 ii r c hiin hrn hcn
  · exact hzero3 ii r c hiin hrn hcn
  · rw [himg]
    unfold get2
    rw [getD_replicate _ _ _ _ hrn, getD_replicate _ _ _ _ hcn]
  · rw [himg]
    unfold get2
    rw [getD_replicate _ _ _ _ hrn, getD_replicate _ _ _ _ hcn]
  · rw [himg]
    exact get2_map_map _ pixeldq r c 0 0 hrp hcp

/-- Witness for C4 (amended) at the concrete all-saturated exposure of
the counterexample. -/
theorem C4_do_all_sat_amended_witness :
    ∃ integ, (do_all_sat (2 ^ 1) (2 ^ 0) [[0]] [[[[2]]], [[[2]]]] 1 1 2).2
        = some integ
      ∧ get3 integ.1 0 0 0 0 = 0
      ∧ (get3 integ.2.1 0 0 0 0).testBit 1 = true
      ∧ (get3 integ.2.1 0 0 0 0).testBit 0 = true
      ∧ get3 integ.2.2.1 0 0 0 0 = 0
      ∧ get3 integ.2.2.2.1 0 0 0 0 = 0
      ∧ get3 integ.2.2.2.2 0 0 0 0 = 0
      ∧ get2 (do_all_sat (2 ^ 1) (2 ^ 0) [[0]] [[[[2]]], [[[2]]]] 1 1 2).1.1 0 0 0 = 0
      ∧ get2 (do_all_sat (2 ^ 1) (2 ^ 0) [[0]] [[[[2]]], [[[2]]]] 1 1 2).1.2.2.2.2 0 0 0 = 0
      ∧ get2 (do_all_sat (2 ^ 1) (2 ^ 0) [[0]] [[[[2]]], [[[2]]]] 1 1 2).1.2.1 0 0 0
          = (get2 [[0]] 0 0 0 ||| 2 ^ 1) ||| 2 ^ 0 := by
  exact C4_do_all_sat_amended 1 0 [[0]] [[[[2]]], [[[2]]]] 1 1 2 0 0 0
    (by decide) (by omega) (by decide) (by decide) (by decide) (by decide)
    (by decide) (by decide) (by decide) (by decide) (by decide)

/-- The bitwise AND of a value with a single-bit flag is positive exactly
when that bit is set. -/
theorem land_two_pow_pos (x kb : ℕ) :
    0 < x &&& 2 ^ kb ↔ x.testBit kb = true := by
  constructor
  · intro h
    by_contra hb
    have hb' : x.testBit kb = false := by
      cases hx : x.testBit kb
      · rfl
      · exact absurd hx hb
    have hz : x &&& 2 ^ kb = 0 := by
      apply Nat.eq_of_testBit_eq
      intro i
      rw [Nat.testBit_and, Nat.zero_testBit]
      rcases eq_or_ne kb i with rfl | hne
      · rw [hb']; rfl
      · rw [Nat.testBit_two_pow_of_ne hne, Bool.and_false]
    omega
  · intro h
    have hbit : (x &&& 2 ^ kb).testBit kb = true := by
      rw [Nat.testBit_and, h, Nat.testBit_two_pow_self]
      rfl
    rcases Nat.eq_zero_or_pos (x &&& 2 ^ kb) with hz | hp
    · rw [hz, Nat.zero_testBit] at hbit
      exact absurd hbit (by simp)
    · exact hp

/-- A left fold of bitwise ORs of values below a power of two stays below
it. -/
theorem foldl_or_lt_two_pow (n : ℕ) :
    ∀ (l : List ℕ) (a : ℕ), a < 2 ^ n → (∀ x ∈ l, x < 2 ^ n) →
      l.foldl (fun x y => x ||| y) a < 2 ^ n := by
  intro l
  induction l with
  | nil => intro a ha _; exact ha
  | cons x xs ih =>
      intro a ha hl
      exact ih (a ||| x) (Nat.or_lt_two_pow ha (hl x (by simp)))
        (fun y hy => hl y (by simp [hy]))

/-- C7: per pixel, the exposure-level DQ of `dq_compress_final` is the
bitwise OR of the integration DQs on every bit other than DO_NOT_USE
(a single bit `kb < 32`, entries being `uint32`), and carries DO_NOT_USE
exactly when every integration has it. -/
theorem C7_dq_compress_final
    (dq_int : List (Arr2 ℕ)) (kb r c b : ℕ)
    (hn : 0 < dq_int.length)
    (hkb : kb < 32)
    (hsh : ∀ jj < dq_int.length,
      (dq_int.getD jj []).length = (dq_int.getD 0 []).length
      ∧ ∀ r' < (dq_int.getD 0 []).length,
          ((dq_int.getD jj []).getD r' []).length
            = ((dq_int.getD 0 []).getD r' []).length)
    (hr : r < (dq_int.getD 0 []).length)
    (hc : c < ((dq_int.getD 0 []).getD r []).length)
    (hlt : ∀ jj < dq_int.length, get2 (dq_int.getD jj []) r c 0 < 2 ^ 32) :
    (b ≠ kb →
      ((get2 (dq_compress_final dq_int dq_int.length (2 ^ kb)) r c 0).testBit b
          = true
        ↔ ∃ jj < dq_int.length,
            (get2 (dq_int.getD jj []) r c 0).testBit b = true))
    ∧ ((get2 (dq_compress_final dq_int dq_int.length (2 ^ kb)) r c 0).testBit kb
          = true
        ↔ ∀ jj < dq_int.length,
            (get2 (dq_int.getD jj []) r c 0).testBit kb = true) := by
  have hfold : ∀ (J : List ℕ) (acc : Arr2 ℕ), (∀ j ∈ J, j < dq_int.length) →
      acc.length = (dq_int.getD 0 []).length →
      (∀ r' < (dq_int.getD 0 []).length,
        (acc.getD r' []).length = ((dq_int.getD 0 []).getD r' []).length) →
      ((J.map (fun jj => dq_int.getD jj [])).foldl or2 acc).length
          = (dq_int.getD 0 []).length
      ∧ (∀ r' < (dq_int.getD 0 []).length,
          (((J.map (fun jj => dq_int.getD jj [])).foldl or2 acc).getD r' []).length
            = ((dq_int.getD 0 []).getD r' []).length)
      ∧ get2 ((J.map (fun jj => dq_int.getD jj [])).foldl or2 acc) r c 0
          = (J.map (fun jj => get2 (dq_int.getD jj []) r c 0)).foldl
              (fun x y => x ||| y) (get2 acc r c 0) := by
    intro J
    induction J with
    | nil => intro acc _ h1 h2; exact ⟨h1, h2, rfl⟩
    | cons j J' ih =>
        intro acc hJ h1 h2
        have hj : j < dq_int.length := hJ j (by simp)
        obtain ⟨hpl, hpr⟩ := hsh j hj
        have hlen : (or2 acc (dq_int.getD j [])).length
            = (dq_int.getD 0 []).length := by
          unfold or2
          rw [List.length_zipWith]
          omega
        have hrows : ∀ r' < (dq_int.getD 0 []).length,
            ((or2 acc (dq_int.getD j [])).getD r' []).length
              = ((dq_int.getD 0 []).getD r' []).length := by
          intro r' hr'
          unfold or2
          rw [getD_zipWith _ _ _ r' [] [] [] (by omega) (by omega)]
          rw [List.length_zipWith]
          have ha := hpr r' hr'
          have hb := h2 r' hr'
          omega
        have hentry : get2 (or2 acc (dq_int.getD j [])) r c 0
            = get2 acc r c 0 ||| get2 (dq_int.getD j []) r c 0 := by
          unfold or2 get2
          rw [getD_zipWith _ _ _ r [] [] [] (by omega) (by omega)]
          rw [getD_zipWith _ _ _ c 0 0 0 (by rw [h2 r hr]; exact hc)
            (by rw [hpr r hr]; exact hc)]
        obtain ⟨k1, k2, k3⟩ := ih (or2 acc (dq_int.getD j []))
          (fun x hx => hJ x (by simp [hx])) hlen hrows
        refine ⟨k1, k2, ?_⟩
        rw [List.map_cons, List.foldl_cons, k3, List.map_cons,
          List.foldl_cons, hentry]
  have hJall : ∀ j ∈ List.range' 1 (dq_int.length - 1), j < dq_int.length := by
    intro j hj
    rw [List.mem_range'] at hj
    obtain ⟨i, hi, rfl⟩ := hj
    omega
  obtain ⟨hL, hR, hE⟩ := hfold (List.range' 1 (dq_int.length - 1))
    (dq_int.getD 0 []) hJall rfl (fun _ _ => rfl)
  have hEbit : ∀ b',
      (get2 (((List.range' 1 (dq_int.length - 1)).map
          (fun jj => dq_int.getD jj [])).foldl or2 (dq_int.getD 0 [])) r c 0).testBit b'
        = true
      ↔ ∃ jj < dq_int.length, (get2 (dq_int.getD jj []) r c 0).testBit b' = true := by
    intro b'
    rw [hE, testBit_foldl_or, List.any_map]
    simp only [Function.comp_def]
    constructor
    · intro h
      rcases Bool.or_eq_true_iff.mp h with h0 | hany
      · exact ⟨0, hn, h0⟩
      · rw [List.any_eq_true] at hany
        obtain ⟨jj, hjm, hjb⟩ := hany
        rw [List.mem_range'] at hjm
        obtain ⟨i, hi, rfl⟩ := hjm
        exact ⟨1 + 1 * i, by omega, hjb⟩
    · rintro ⟨jj, hjj, hjb⟩
      rcases Nat.eq_zero_or_pos jj with rfl | hpos
      · rw [hjb]
        rfl
      · have : (List.range' 1 (dq_int.length - 1)).any
            (fun x => (get2 (dq_int.getD x []) r c 0).testBit b') = true := by
          rw [List.any_eq_true]
          refine ⟨jj, ?_, hjb⟩
          rw [List.mem_range']
          exact ⟨jj - 1, by omega, by omega⟩
        rw [this, Bool.or_true]
  have hEsz : get2 (((List.range' 1 (dq_int.length - 1)).map
      (fun jj => dq_int.getD jj [])).foldl or2 (dq_int.getD 0 [])) r c 0 < 2 ^ 32 := by
    rw [hE]
    apply foldl_or_lt_two_pow
    · exact hlt 0 hn
    · intro x hx
      rw [List.mem_map] at hx
      obtain ⟨jj, hjm, rfl⟩ := hx
      exact hlt jj (hJall jj hjm)
  have hout : get2 (dq_compress_final dq_int dq_int.length (2 ^ kb)) r c 0
      = (if (((List.range dq_int.length).filter
              (fun jj => decide (0 < (get2 (dq_int.getD jj []) r c 0) &&& 2 ^ kb))).length
            < dq_int.length) then
          (get2 (((List.range' 1 (dq_int.length - 1)).map
            (fun jj => dq_int.getD jj [])).foldl or2 (dq_int.getD 0 [])) r c 0)
            &&& (4294967295 ^^^ 2 ^ kb)
         else
          get2 (((List.range' 1 (dq_int.length - 1)).map
            (fun jj => dq_int.getD jj [])).foldl or2 (dq_int.getD 0 [])) r c 0) := by
    unfold dq_compress_final get2
    simp only
    rw [getD_range_map _ _ _ _ (by omega : r < (((List.range' 1 (dq_int.length - 1)).map
      (fun jj => dq_int.getD jj [])).foldl or2 (dq_int.getD 0 [])).length)]
    rw [getD_range_map _ _ _ _ (by rw [hR r hr]; exact hc)]
  have hfl : (((List.range dq_int.length).filter
      (fun jj => decide (0 < (get2 (dq_int.getD jj []) r c 0) &&& 2 ^ kb))).length
        = dq_int.length)
      ∨ (((List.range dq_int.length).filter
      (fun jj => decide (0 < (get2 (dq_int.getD jj []) r c 0) &&& 2 ^ kb))).length
        < dq_int.length) := by
    have := List.length_filter_le
      (fun jj => decide (0 < (get2 (dq_int.getD jj []) r c 0) &&& 2 ^ kb))
      (List.range dq_int.length)
    rw [List.length_range] at this
    omega
  rcases hfl with hall | hlt2
  · have hallb : ∀ jj < dq_int.length,
        (get2 (dq_int.getD jj []) r c 0).testBit kb = true := by
      intro jj hjj
      have hmem := (List.filter_length_eq_length.mp
        (by rw [hall, List.length_range])) jj (by rw [List.mem_range]; exact hjj)
      rw [decide_eq_true_eq] at hmem
      exact (land_two_pow_pos _ _).mp hmem
    rw [hout, if_neg (by rw [hall]; omega)]
    refine ⟨fun _ => hEbit b, ?_⟩
    rw [hEbit kb]
    constructor
    · intro _
      exact hallb
    · intro h
      exact ⟨0, hn, hallb 0 hn⟩
  · have hexf : ∃ jj < dq_int.length,
        (get2 (dq_int.getD jj []) r c 0).testBit kb = false := by
      by_contra hcon
      push_neg at hcon
      have : ∀ jj ∈ List.range dq_int.length,
          (fun jj => decide (0 < (get2 (dq_int.getD jj []) r c 0) &&& 2 ^ kb)) jj
            = true := by
        intro jj hjj
        rw [List.mem_range] at hjj
        rw [decide_eq_true_eq]
        apply (land_two_pow_pos _ _).mpr
        exact Bool.ne_false_iff.mp (hcon jj hjj)
      have := List.filter_length_eq_length.mpr this
      rw [List.length_range] at this
      omega
    rw [hout, if_pos hlt2]
    have hmask : ∀ b', ((get2 (((List.range' 1 (dq_int.length - 1)).map
        (fun jj => dq_int.getD jj [])).foldl or2 (dq_int.getD 0 [])) r c 0)
          &&& (4294967295 ^^^ 2 ^ kb)).testBit b'
        = ((get2 (((List.range' 1 (dq_int.length - 1)).map
            (fun jj => dq_int.getD jj [])).foldl or2 (dq_int.getD 0 [])) r c 0).testBit b'
          && (decide (b' < 32) ^^ decide (kb = b'))) := by
      intro b'
      rw [Nat.testBit_and, Nat.testBit_xor]
      have h32 : (4294967295 : ℕ) = 2 ^ 32 - 1 := by norm_num
      rw [h32, Nat.testBit_two_pow_sub_one, Nat.testBit_two_pow]
    constructor
    · intro hbne
      rw [hmask b]
      rcases Nat.lt_or_ge b 32 with hb32 | hb32
      · rw [decide_eq_true hb32, decide_eq_false (fun h => hbne h.symm)]
        simp only [Bool.xor_false, Bool.and_true]
        exact hEbit b
      · have hnb : ∀ x < 2 ^ 32, x.testBit b = false := by
          intro x hx
          apply Nat.testBit_lt_two_pow
          calc x < 2 ^ 32 := hx
            _ ≤ 2 ^ b := Nat.pow_le_pow_right (by omega) hb32
        rw [hnb _ hEsz]
        simp only [Bool.false_and, Bool.false_eq_true, false_iff]
        rintro ⟨jj, hjj, hjb⟩
        rw [hnb _ (hlt jj hjj)] at hjb
        exact absurd hjb (by simp)
    · rw [hmask kb]
      rw [decide_eq_true hkb, decide_eq_true rfl]
      simp only [Bool.xor_true, Bool.and_false]
      constructor
      · intro h
        exact absurd h (by simp)
      · intro h
        obtain ⟨jj, hjj, hjb⟩ := hexf
        rw [h jj hjj] at hjb
        exact absurd hjb (by simp)

/-- Witness for C7 at two concrete 1x1 integrations, DO_NOT_USE bit 0:
the pixel has DQ values 5 and 2, so bit 1 (value 2) survives into the
exposure DQ. -/
theorem C7_dq_compress_final_witness :
    (get2 (dq_compress_final [[[5]], [[2]]] 2 (2 ^ 0)) 0 0 0).testBit 1 = true
    ↔ ∃ jj < 2, (get2 ([[[5]], [[2]]].getD jj []) 0 0 0).testBit 1 = true := by
  have h := C7_dq_compress_final [[[5]], [[2]]] 0 0 0 1
    (by decide) (by decide)
    (by decide) (by decide) (by decide) (by decide)
  exact (h.1 (by decide))

/-- Witness for C9 at `n = 5`, `rn = 2`, `group_time = 1`, `gain = 3`. -/
theorem C9_calc_slope_vars_factors_witness :
    calc_slope_vars_den_r 5 = 1 / ((5 : ℚ) ^ 3 - (5 : ℚ))
    ∧ calc_slope_vars_den_p 1 3 5 = 1 / (1 * 3 * ((max 1 (5 - 1) : ℕ) : ℚ)) := by
  exact ⟨(C9_calc_slope_vars_factors 5 2 1 3).1 (by norm_num),
    (C9_calc_slope_vars_factors 5 2 1 3).2.2.2⟩

/-- Reading a `set` either reads the old list or, at the set position
(in bounds), the new value. -/
theorem getD_set_cases {α : Type} :
    ∀ (l : List α) (i j : ℕ) (x d : α),
      (l.set i x).getD j d = l.getD j d
      ∨ (i = j ∧ j < l.length ∧ (l.set i x).getD j d = x) := by
  intro l
  induction l with
  | nil => intro i j x d; left; rw [List.set_nil]
  | cons y ys ih =>
      intro i j x d
      cases i with
      | zero =>
          cases j with
          | zero => right; exact ⟨rfl, by simp, by simp⟩
          | succ j' => left; simp [List.set_cons_zero]
      | succ i' =>
          cases j with
          | zero => left; simp [List.set_cons_succ]
          | succ j' =>
              simp only [List.set_cons_succ, List.getD_cons_succ]
              rcases ih i' j' x d with h | ⟨h1, h2, h3⟩
              · left; exact h
              · right; exact ⟨by omega, by simp; omega, h3⟩

/-- `updOr3` leaves every entry alone except the updated one, which
gains the ORed value. -/
theorem get3_updOr3 (a : Arr3 ℕ) (g r c v g' r' c' : ℕ) :
    get3 (updOr3 a g r c v) g' r' c' 0 = get3 a g' r' c' 0
    ∨ get3 (updOr3 a g r c v) g' r' c' 0 = get3 a g' r' c' 0 ||| v := by
  unfold updOr3 get3
  rcases getD_set_cases a g g'
      ((a.getD g []).set r (((a.getD g []).getD r []).set c
        ((((a.getD g []).getD r []).getD c 0) ||| v))) [] with h1 | ⟨hg, _, h1⟩
  · left; rw [h1]
  · rw [h1]
    subst hg
    rcases getD_set_cases (a.getD g []) r r'
        (((a.getD g []).getD r []).set c
          ((((a.getD g []).getD r []).getD c 0) ||| v)) [] with h2 | ⟨hr, _, h2⟩
    · left; rw [h2]
    · rw [h2]
      subst hr
      rcases getD_set_cases ((a.getD g []).getD r []) c c'
          ((((a.getD g []).getD r []).getD c 0) ||| v) 0 with h3 | ⟨hc, _, h3⟩
      · left; rw [h3]
      · rw [h3]
        subst hc
        right
        rfl

theorem Mon3.rfl (a : Arr3 ℕ) : Mon3 a a := fun _ _ _ _ h => h

theorem Mon3.comp {a b c : Arr3 ℕ} (h1 : Mon3 a b) (h2 : Mon3 b c) :
    Mon3 a c := fun g r cc n h => h2 g r cc n (h1 g r cc n h)

theorem mon3_updOr3 (a : Arr3 ℕ) (g r c v : ℕ) :
    Mon3 a (updOr3 a g r c v) := by
  intro g' r' c' n h
  rcases get3_updOr3 a g r c v g' r' c' with he | he
  · rw [he]; exact h
  · rw [he, Nat.testBit_or, h]; rfl

theorem mon3_applyUpds (U : List ((ℕ × ℕ × ℕ) × ℕ)) :
    ∀ (a : Arr3 ℕ), Mon3 a (applyUpds a U) := by
  induction U with
  | nil => intro a; exact Mon3.rfl a
  | cons u U' ih =>
      intro a
      exact Mon3.comp (mon3_updOr3 a u.1.1 u.1.2.1 u.1.2.2 u.2) (ih (orUpd3 a u))

theorem mon3_ite (a : Arr3 ℕ) (b : Prop) [Decidable b] (g r c v : ℕ) :
    Mon3 a (if b then updOr3 a g r c v else a) := by
  split_ifs with h
  · exact mon3_updOr3 a g r c v
  · exact Mon3.rfl a

theorem mon3_neighborStep (JUMP nrows ncols ndiffs : ℕ) (maxJ minJ : ℚ)
    (ratios : Arr3 FV) (st : Arr3 ℕ × Arr2 ℕ × Arr2 ℕ) (p : ℕ × ℕ × ℕ) :
    Mon3 st.1 (neighborStep JUMP nrows ncols ndiffs maxJ minJ ratios st p).1 := by
  unfold neighborStep
  by_cases hc : (FV.flt (get3 ratios (if p.1 = 0 then ndiffs - 1 else p.1 - 1)
      p.2.1 p.2.2 FV.nan) (FV.fin maxJ)
      && FV.flt (FV.fin minJ) (get3 ratios (if p.1 = 0 then ndiffs - 1 else p.1 - 1)
        p.2.1 p.2.2 FV.nan)) = true
  · rw [if_pos hc]
    exact Mon3.comp (Mon3.comp (Mon3.comp
      (mon3_ite _ _ _ _ _ _) (mon3_ite _ _ _ _ _ _))
      (mon3_ite _ _ _ _ _ _)) (mon3_ite _ _ _ _ _ _)
  · rw [if_neg (by simpa using hc)]
    exact Mon3.rfl _

theorem mon3_neighborFold (JUMP nrows ncols ndiffs : ℕ) (maxJ minJ : ℚ)
    (ratios : Arr3 FV) :
    ∀ (L : List (ℕ × ℕ × ℕ)) (st : Arr3 ℕ × Arr2 ℕ × Arr2 ℕ),
      Mon3 st.1
        ((L.foldl (neighborStep JUMP nrows ncols ndiffs maxJ minJ ratios) st)).1 := by
  intro L
  induction L with
  | nil => intro st; exact Mon3.rfl _
  | cons p L' ih =>
      intro st
      rw [List.foldl_cons]
      exact Mon3.comp
        (mon3_neighborStep JUMP nrows ncols ndiffs maxJ minJ ratios st p)
        (ih _)

/-- `finishInteg` only ever ORs flags into the group DQ it is given. -/
theorem finishInteg_mono (JUMP ngroups nrows ncols : ℕ) (maxJ minJ : ℚ)
    (flag4 : Bool) (rt : Arr3 FV) (gdqI : Arr3 ℕ)
    (masks : List ((ℕ × ℕ) × List Bool)) :
    Mon3 gdqI (finishInteg JUMP ngroups nrows ncols maxJ minJ flag4 rt gdqI masks).1 := by
  unfold finishInteg
  by_cases hf : flag4 = true
  · rw [if_pos hf]
    exact @Mon3.comp gdqI (primaryGdq JUMP ngroups gdqI masks) _
      (mon3_applyUpds _ gdqI)
      (mon3_neighborFold JUMP nrows ncols (ngroups - 1) maxJ minJ rt
        (jumpLocs (primaryGdq JUMP ngroups gdqI masks) JUMP)
        (primaryGdq JUMP ngroups gdqI masks, zeros2N ngroups ncols,
          zeros2N ngroups ncols))
  · rw [if_neg hf]
    exact mon3_applyUpds _ gdqI

/-- `processInteg` only ever ORs flags into the group DQ it is given. -/
theorem processInteg_mono (sq : ℚ → ℚ) (SAT DNU JUMP : ℕ) (nframes : ℕ)
    (normal two three : ℚ) (flag4 : Bool) (maxJ minJ : ℚ)
    (read_noise : Arr2 ℚ) (ngroups nrows ncols : ℕ)
    (dat2 : Arr3 ℚ) (gdqI : Arr3 ℕ) (t : Arr3 ℕ × Arr2 ℕ × Arr2 ℕ)
    (h : processInteg sq SAT DNU JUMP nframes normal two three flag4 maxJ minJ
      read_noise ngroups nrows ncols dat2 gdqI = some t) :
    Mon3 gdqI t.1 := by
  unfold processInteg at h
  rcases hm : crMasks sq SAT DNU nframes normal two three read_noise ngroups
      nrows ncols dat2 gdqI with _ | masks
  · rw [hm] at h
    exact absurd h (by simp)
  · rw [hm] at h
    simp only [Option.some_inj] at h
    rw [← h]
    exact finishInteg_mono _ _ _ _ _ _ _ _ _ _

/-- A successful `mapM` over `Option` succeeds pointwise. -/
theorem mapM_option_some {α β : Type} (f : α → Option β) :
    ∀ (l : List α) (res : List β), l.mapM f = some res →
      res.length = l.length
      ∧ ∀ i (hi : i < l.length) (hri : i < res.length),
          f (l.get ⟨i, hi⟩) = some (res.get ⟨i, hri⟩) := by
  intro l
  induction l with
  | nil =>
      intro res h
      simp only [List.mapM_nil, pure, Option.some_inj] at h
      subst h
      exact ⟨rfl, fun i hi => by simp at hi⟩
  | cons a l' ih =>
      intro res h
      rw [List.mapM_cons] at h
      cases hfa : f a with
      | none =>
          rw [hfa] at h
          simp [Option.bind] at h
      | some b =>
          rw [hfa] at h
          cases hml : l'.mapM f with
          | none =>
              rw [hml] at h
              simp [Option.bind, Seq.seq, Functor.map] at h
          | some bs =>
              rw [hml] at h
              simp only [Option.bind, bind, pure, Option.some_inj,
                Option.bind_some] at h
              obtain ⟨hlen, hpt⟩ := ih bs hml
              subst h
              refine ⟨by simp [hlen], ?_⟩
              intro i hi hri
              cases i with
              | zero => simpa using hfa
              | succ i' =>
                  simp only [List.get_cons_succ]
                  exact hpt i' (by simpa using hi) (by simpa using hri)

/-- Any successful `find_crs` run preserves every input DQ bit. -/
theorem find_crs_mono (sq : ℚ → ℚ) (dataa : Arr4 ℚ)
    (group_dq : Arr4 ℕ) (read_noise : Arr2 ℚ)
    (normal two three : ℚ) (nframes : ℕ) (flag4 : Bool) (maxJ minJ : ℚ)
    (DNU SAT JUMP : ℕ) (gdq' : Arr4 ℕ) (rowB rowA : Arr3 ℕ)
    (h : find_crs sq dataa group_dq read_noise normal two three nframes flag4
      maxJ minJ DNU SAT JUMP = some (gdq', rowB, rowA))
    (i g r c b : ℕ)
    (hbit : (get4 group_dq i g r c 0).testBit b = true) :
    (get4 gdq' i g r c 0).testBit b = true := by
  unfold find_crs at h
  simp only [] at h
  rcases hm : (List.range dataa.length).mapM (fun i =>
      processInteg sq SAT DNU JUMP nframes normal two three flag4 maxJ minJ
        read_noise ((dataa.getD 0 []).length)
        (((dataa.getD 0 []).getD 0 []).length)
        ((((dataa.getD 0 []).getD 0 []).getD 0 []).length)
        (dataa.getD i []) (group_dq.getD i [])) with _ | results
  · rw [hm] at h
    exact absurd h (by simp)
  · rw [hm] at h
    simp only [Option.some_inj, Prod.mk.injEq] at h
    obtain ⟨hgdq, _, _⟩ := h
    obtain ⟨hlen, hpt⟩ := mapM_option_some _ _ _ hm
    rw [List.length_range] at hlen
    rw [← hgdq]
    unfold get4
    rcases Nat.lt_or_ge i dataa.length with hilt | hige
    · have hi1 : i < (results.map (fun t => t.1)).length := by
        rw [List.length_map]
        omega
      have hstep : ((results.map (fun t => t.1) ++ group_dq.drop dataa.length).getD
          i []) = (results.get ⟨i, by omega⟩).1 := by
        rw [List.getD_eq_getElem?_getD, List.getElem?_append_left hi1]
        rw [List.getElem?_eq_getElem hi1]
        simp only [Option.getD_some]
        rw [List.getElem_map]
        rfl
      rw [hstep]
      have hproc := hpt i (by rw [List.length_range]; exact hilt) (by omega)
      have hrange : (List.range dataa.length).get
          ⟨i, by rw [List.length_range]; exact hilt⟩ = i := by
        simp [List.get_eq_getElem]
      rw [hrange] at hproc
      exact processInteg_mono _ _ _ _ _ _ _ _ _ _ _ _ _ _ _ _ _ _ hproc
        g r c b hbit
    · have hstep : ((results.map (fun t => t.1) ++ group_dq.drop dataa.length).getD
          i []) = group_dq.getD i [] := by
        rw [List.getD_eq_getElem?_getD, List.getElem?_append_right
          (by rw [List.length_map]; omega)]
        rw [List.length_map, hlen, List.getElem?_drop,
          List.getD_eq_getElem?_getD]
        congr 2
        omega
      rw [hstep]
      exact hbit

/-- C6: jump detection only adds flags.  Every DQ bit set in the input
group DQ cube is still set at the same position in the group DQ returned
by `find_crs`. -/
theorem C6_find_crs_monotone_flags (sq : ℚ → ℚ) (dataa : Arr4 ℚ)
    (group_dq : Arr4 ℕ) (read_noise : Arr2 ℚ)
    (normal two three : ℚ) (nframes : ℕ) (flag4 : Bool) (maxJ minJ : ℚ)
    (DNU SAT JUMP : ℕ) (gdq' : Arr4 ℕ) (rowB rowA : Arr3 ℕ)
    (h : find_crs sq dataa group_dq read_noise normal two three nframes flag4
      maxJ minJ DNU SAT JUMP = some (gdq', rowB, rowA))
    (i g r c b : ℕ)
    (hbit : (get4 group_dq i g r c 0).testBit b = true) :
    (get4 gdq' i g r c 0).testBit b = true :=
  find_crs_mono sq dataa group_dq read_noise normal two three nframes flag4
    maxJ minJ DNU SAT JUMP gdq' rowB rowA h i g r c b hbit

/-- Witness for C6 at a concrete run: one pixel with three groups, the
first group carrying DO_NOT_USE (bit 0), which the returned DQ keeps. -/
theorem C6_find_crs_monotone_flags_witness :
    (get4 [[[[1]], [[0]], [[0]]]] 0 0 0 0 0).testBit 0 = true
    ∧ (get4 [[[[1]], [[0]], [[0]]]] 0 0 0 0 0).testBit 0 = true := by
  have h := C6_find_crs_monotone_flags sqrtQ [[[[0]], [[0]], [[0]]]]
    [[[[1]], [[0]], [[0]]]] [[1]] 5 5 5 1 false 0 0 1 2 4
    [[[[1]], [[0]], [[0]]]] [[[0], [0], [0]]] [[[0], [0], [0]]]
    (by rfl) 0 0 0 0 0 (by decide)
  exact ⟨by decide, h⟩

/-- C5 (corrected): jump detection is not idempotent when neighbour
flagging is on.  One integration of four groups over a 4x1 image
(DO_NOT_USE = 1, SATURATED = 2, JUMP_DET = 4, all thresholds 10,
neighbour window (4, 200), read noise 1): the first run flags the jump
at group 3 of row 1 and its two row neighbours.  The second run, fed the
first run's group DQ, iterates over *all* JUMP_DET positions; row 2
(flagged only as a neighbour) has its own phase-1 ratio 8 inside the
window, so its neighbour row 3 is newly flagged and the returned DQ
differs. -/
theorem C5_find_crs_not_idempotent_counterexample :
    find_crs sqrtQ
        [[[[0], [0], [0], [0]], [[0], [0], [0], [0]],
          [[0], [0], [0], [0]], [[0], [100], [8], [0]]]]
        [[[[0], [0], [0], [0]], [[0], [0], [0], [0]],
          [[0], [0], [0], [0]], [[0], [0], [0], [0]]]]
        [[1], [1], [1], [1]] 10 10 10 1 true 200 4 1 2 4
      = some ([[[[0], [0], [0], [0]], [[0], [0], [0], [0]],
                [[0], [0], [0], [0]], [[4], [4], [4], [0]]]],
              [[[0], [0], [0], [0]]], [[[0], [0], [0], [0]]])
    ∧ find_crs sqrtQ
        [[[[0], [0], [0], [0]], [[0], [0], [0], [0]],
          [[0], [0], [0], [0]], [[0], [100], [8], [0]]]]
        [[[[0], [0], [0], [0]], [[0], [0], [0], [0]],
          [[0], [0], [0], [0]], [[4], [4], [4], [0]]]]
        [[1], [1], [1], [1]] 10 10 10 1 true 200 4 1 2 4
      = some ([[[[0], [0], [0], [0]], [[0], [0], [0], [0]],
                [[0], [0], [0], [0]], [[4], [4], [4], [4]]]],
              [[[0], [0], [0], [0]]], [[[0], [0], [0], [0]]])
    ∧ ([[[[0], [0], [0], [0]], [[0], [0], [0], [0]],
         [[0], [0], [0], [0]], [[4], [4], [4], [4]]]] : Arr4 ℕ)
        ≠ [[[[0], [0], [0], [0]], [[0], [0], [0], [0]],
            [[0], [0], [0], [0]], [[4], [4], [4], [0]]]] := by
  exact ⟨rfl, rfl, by decide⟩

/-- C5 (amended): jump detection is not idempotent — with neighbour
flagging enabled a second pass over its own output DQ can set new
JUMP_DET flags — but a second pass is monotone: every DQ bit set in the
first run's returned group DQ is still set at the same position in the
second run's returned group DQ. -/
theorem C5_find_crs_second_pass_monotone (sq : ℚ → ℚ) (dataa : Arr4 ℚ)
    (group_dq gdq1 gdq2 : Arr4 ℕ) (read_noise : Arr2 ℚ)
    (normal two three : ℚ) (nframes : ℕ) (flag4 : Bool) (maxJ minJ : ℚ)
    (DNU SAT JUMP : ℕ) (rowB1 rowA1 rowB2 rowA2 : Arr3 ℕ)
    (h1 : find_crs sq dataa group_dq read_noise normal two three nframes
      flag4 maxJ minJ DNU SAT JUMP = some (gdq1, rowB1, rowA1))
    (h2 : find_crs sq dataa gdq1 read_noise normal two three nframes
      flag4 maxJ minJ DNU SAT JUMP = some (gdq2, rowB2, rowA2))
    (i g r c b : ℕ)
    (hbit : (get4 gdq1 i g r c 0).testBit b = true) :
    (get4 gdq2 i g r c 0).testBit b = true :=
  find_crs_mono sq dataa gdq1 read_noise normal two three nframes flag4
    maxJ minJ DNU SAT JUMP gdq2 rowB2 rowA2 h2 i g r c b hbit

/-- Witness for the amended C5 at the concrete double run: the JUMP_DET
bit the first pass set at group 3, row 1 survives the second pass. -/
theorem C5_find_crs_second_pass_monotone_witness :
    (get4 [[[[0], [0], [0], [0]], [[0], [0], [0], [0]],
            [[0], [0], [0], [0]], [[4], [4], [4], [4]]]]
        0 3 1 0 0).testBit 2 = true :=
  C5_find_crs_second_pass_monotone sqrtQ
    [[[[0], [0], [0], [0]], [[0], [0], [0], [0]],
      [[0], [0], [0], [0]], [[0], [100], [8], [0]]]]
    [[[[0], [0], [0], [0]], [[0], [0], [0], [0]],
      [[0], [0], [0], [0]], [[0], [0], [0], [0]]]]
    [[[[0], [0], [0], [0]], [[0], [0], [0], [0]],
      [[0], [0], [0], [0]], [[4], [4], [4], [0]]]]
    [[[[0], [0], [0], [0]], [[0], [0], [0], [0]],
      [[0], [0], [0], [0]], [[4], [4], [4], [4]]]]
    [[1], [1], [1], [1]] 10 10 10 1 true 200 4 1 2 4
    [[[0], [0], [0], [0]]] [[[0], [0], [0], [0]]]
    [[[0], [0], [0], [0]]] [[[0], [0], [0], [0]]]
    (by rfl) (by rfl) 0 3 1 0 2 (by decide)

/-- C8 (corrected): `find_crs` can raise.  A single pixel with six
groups `[0, 8, 16, 16, 16, 116]`, zero read noise and thresholds 4:
the refinement loop drives sigma to 0, successively flags the diffs
`100`, `8`, `8`, and is then left with remaining diffs `[0, 0]` whose
median and sigma are 0, making every ratio `0/0 = NaN` — so
`np.nanargmax` raises `ValueError` (modelled as `none`). -/
theorem C8_find_crs_raises_counterexample :
    find_crs sqrtQ [[[[0]], [[8]], [[16]], [[16]], [[16]], [[116]]]]
      [[[[0]], [[0]], [[0]], [[0]], [[0]], [[0]]]] [[0]] 4 4 4 1 false 0 0
      1 2 4 = none := by
  rfl

/-- C3 (corrected): OLS ramp fitting writes through the caller's
read-noise reference.  With `readnoise = [[1]]`, `gain = [[3]]`,
`nframes = 2` the caller's read-noise array holds `[[3/2]]` after the
call (`1 * 3 / sqrt(4)`), not `[[1]]`. -/
theorem C3_ramp_fit_readnoise_mutation_counterexample :
    ramp_fit_data_arrays sqrtQ false [[[[1]]]] [[[[0]]]] [[1]] [[3]] 2
      = ([[[[1]]]], [[[[0]]]], [[3 / 2]], [[3]])
    ∧ ([[3 / 2]] : Arr2 ℚ) ≠ [[1]] := by
  exact ⟨rfl, by decide⟩

/-- C3 (amended): within `ramp_fit_data` itself, the data cube, group-DQ
cube and gain array referenced by the caller are unchanged, while the
read-noise array is overwritten element-wise with
`readnoise * gain / sqrt(2 * nframes)` in the OLS branch; the GLS branch
changes nothing.  Jump detection (`find_crs`) copies its inputs, so its
caller's arrays are untouched. -/
theorem C3_ramp_fit_data_array_effects (sq : ℚ → ℚ) (data : Arr4 ℚ)
    (gdq : Arr4 ℕ) (readnoise_2d gain_2d : Arr2 ℚ) (nframes : ℕ) :
    ramp_fit_data_arrays sq false data gdq readnoise_2d gain_2d nframes
      = (data, gdq,
         List.zipWith
           (fun rrow grow =>
             List.zipWith (fun r g => r * (g / sq (2 * natQ nframes))) rrow grow)
           readnoise_2d gain_2d,
         gain_2d)
    ∧ ramp_fit_data_arrays sq true data gdq readnoise_2d gain_2d nframes
      = (data, gdq, readnoise_2d, gain_2d) := by
  exact ⟨rfl, rfl⟩

/-- Reading a `take` below the cut reads the original list. -/
theorem getD_take_lt {α : Type} (l : List α) (n m : ℕ) (d : α) (h : m < n) :
    (l.take n).getD m d = l.getD m d := by
  rw [List.getD_eq_getElem?_getD, List.getD_eq_getElem?_getD,
    List.getElem?_take_of_lt h]

/-- Reading a `drop` reads the original list at the shifted index. -/
theorem getD_drop' {α : Type} (l : List α) (n m : ℕ) (d : α) :
    (l.drop n).getD m d = l.getD (n + m) d := by
  rw [List.getD_eq_getElem?_getD, List.getD_eq_getElem?_getD,
    List.getElem?_drop]

/-- A positive default read is only possible in bounds. -/
theorem getD_pos_lt_length {r : List ℕ} {i : ℕ} (h : 0 < r.getD i 0) :
    i < r.length := by
  by_contra hc
  rw [List.getD_eq_getElem?_getD, List.getElem?_eq_none (by omega)] at h
  simp at h

/-- Sum decomposition of a list at an in-bounds index. -/
theorem sum_decomp (r : List ℕ) (i : ℕ) (h : i < r.length) :
    r.sum = (r.take i).sum + r.getD i 0 + (r.drop (i + 1)).sum := by
  have hsplit : r.sum = (r.take i).sum + (r.drop i).sum := by
    conv_lhs => rw [← List.take_append_drop i r]
    rw [List.sum_append]
  have hgd : r.getD i 0 = r[i] := by
    rw [List.getD_eq_getElem?_getD, List.getElem?_eq_getElem h]
    rfl
  rw [hsplit, List.drop_eq_getElem_cons h, List.sum_cons, hgd]
  omega

/-- An entry is at most the sum. -/
theorem elem_le_sum (r : List ℕ) (i : ℕ) : r.getD i 0 ≤ r.sum := by
  rcases Nat.lt_or_ge i r.length with h | h
  · have := sum_decomp r i h
    omega
  · rw [List.getD_eq_getElem?_getD, List.getElem?_eq_none (by omega)]
    simp

/-- Two distinct entries together are at most the sum. -/
theorem two_elems_le_sum (r : List ℕ) (i j : ℕ) (hij : i ≠ j)
    (hi : i < r.length) (hj : j < r.length) :
    r.getD i 0 + r.getD j 0 ≤ r.sum := by
  have key : ∀ a b, a < b → b < r.length →
      r.getD a 0 + r.getD b 0 ≤ r.sum := by
    intro a b hab hbl
    have hd := sum_decomp r a (by omega)
    have hdrop : r.getD b 0 = (r.drop (a + 1)).getD (b - (a + 1)) 0 := by
      rw [getD_drop']
      congr 1
      omega
    have hle := elem_le_sum (r.drop (a + 1)) (b - (a + 1))
    omega
  rcases Nat.lt_or_ge i j with h | h
  · exact key i j h hj
  · have h' : j < i := by omega
    have := key j i h' hi
    omega

/-- A positive sum comes from a positive entry. -/
theorem exists_pos_of_sum_pos :
    ∀ (l : List ℕ), 0 < l.sum → ∃ k < l.length, 0 < l.getD k 0 := by
  intro l
  induction l with
  | nil => intro h; simp at h
  | cons x xs ih =>
      intro h
      rcases Nat.eq_zero_or_pos x with rfl | hx
      · rw [List.sum_cons] at h
        obtain ⟨k, hk, hpos⟩ := ih (by omega)
        exact ⟨k + 1, by simpa using hk, by simpa using hpos⟩
      · exact ⟨0, by simp, by simpa using hx⟩

/-- Removing a segment removes exactly its length from the sum. -/
theorem sum_removeSeg (r : List ℕ) (i : ℕ) (h : i < r.length) :
    (removeSeg r i).sum + r.getD i 0 = r.sum := by
  unfold removeSeg
  rw [List.sum_append, List.sum_append]
  have := sum_decomp r i h
  simp only [List.sum_cons, List.sum_nil]
  omega

/-- A sweep step either does nothing or removes a segment of length 1. -/
theorem stepPair_cases (q : ℕ × ℕ) (r : List ℕ) :
    stepPair q r = r ∨ (stepPair q r).sum + 1 = r.sum := by
  unfold stepPair
  split_ifs with h
  · right
    have hlen : q.1 < r.length := getD_pos_lt_length (by omega)
    have := sum_removeSeg r q.1 hlen
    omega
  · left
    rfl

/-- A sweep never increases the total segment length of a ramp. -/
theorem foldl_stepPair_le :
    ∀ (ps : List (ℕ × ℕ)) (r : List ℕ),
      (ps.foldl (fun r q => stepPair q r) r).sum ≤ r.sum := by
  intro ps
  induction ps with
  | nil => intro r; exact Nat.le_refl _
  | cons q qs ih =>
      intro r
      rw [List.foldl_cons]
      rcases stepPair_cases q r with heq | hlt
      · rw [heq]
        exact ih r
      · have := ih (stepPair q r)
        omega

/-- If some pair of the sweep matches the current ramp, the sweep
strictly decreases its total segment length. -/
theorem foldl_stepPair_lt :
    ∀ (ps : List (ℕ × ℕ)) (r : List ℕ) (p : ℕ × ℕ), p ∈ ps →
      r.getD p.1 0 = 1 → 0 < r.getD p.2 0 →
      (ps.foldl (fun r q => stepPair q r) r).sum < r.sum := by
  intro ps
  induction ps with
  | nil => intro r p hp; simp at hp
  | cons q qs ih =>
      intro r p hp h1 h2
      rw [List.foldl_cons]
      rcases stepPair_cases q r with heq | hlt
      · rcases List.mem_cons.mp hp with rfl | hmem
        · exfalso
          have hcond : stepPair p r = removeSeg r p.1 := by
            unfold stepPair
            rw [if_pos ⟨h1, h2⟩]
          have hlen : p.1 < r.length := getD_pos_lt_length (by omega)
          have hsum := sum_removeSeg r p.1 hlen
          rw [hcond] at heq
          rw [heq] at hsum
          omega
        · rw [heq]
          exact ih r p hmem h1 h2
      · have := foldl_stepPair_le qs (stepPair q r)
        omega

/-- Membership in the sweep's pair list. -/
theorem mem_sweepPairs (m i j : ℕ) (hi : i < m) (hj : j < m) (hij : j ≠ i) :
    (i, j) ∈ sweepPairs m := by
  unfold sweepPairs
  rw [List.mem_flatten]
  refine ⟨((List.range m).filter (fun j => j ≠ i)).map (fun j => (i, j)), ?_, ?_⟩
  · rw [List.mem_map]
    exact ⟨i, by rw [List.mem_range]; exact hi, rfl⟩
  · rw [List.mem_map]
    refine ⟨j, ?_, rfl⟩
    rw [List.mem_filter]
    exact ⟨by rw [List.mem_range]; exact hj, by simpa using hij⟩

/-- A ramp counted by `tot_num_single_grp_ramps` is matched by some pair
of the sweep. -/
theorem exists_cond_pair (m : ℕ) (r : List ℕ)
    (hsum : 1 < (r.take m).sum) (hcnt : 0 < (r.take m).count 1) :
    ∃ p ∈ sweepPairs m, r.getD p.1 0 = 1 ∧ 0 < r.getD p.2 0 := by
  have hm1 : (1 : ℕ) ∈ r.take m := List.count_pos_iff.mp hcnt
  obtain ⟨i, hi, hti⟩ := List.mem_iff_getElem.mp hm1
  have hgi : (r.take m).getD i 0 = 1 := by
    rw [List.getD_eq_getElem?_getD, List.getElem?_eq_getElem hi]
    simpa using hti
  have him : i < m := by
    have := List.length_take m r
    omega
  have hgir : r.getD i 0 = 1 := by
    rw [← getD_take_lt r m i 0 him]
    exact hgi
  have hdec := sum_decomp (r.take m) i hi
  have hrest : 0 < ((r.take m).take i).sum + ((r.take m).drop (i + 1)).sum := by
    omega
  have hj : ∃ j, j ≠ i ∧ j < m ∧ 0 < r.getD j 0 := by
    rcases Nat.eq_zero_or_pos ((r.take m).take i).sum with hz | hpos
    · have hpos2 : 0 < ((r.take m).drop (i + 1)).sum := by omega
      obtain ⟨k, hk, hkpos⟩ := exists_pos_of_sum_pos _ hpos2
      have hklen : i + 1 + k < (r.take m).length := by
        rw [List.length_drop] at hk
        omega
      have hkm : i + 1 + k < m := by
        have := List.length_take m r
        omega
      refine ⟨i + 1 + k, by omega, hkm, ?_⟩
      rw [getD_drop'] at hkpos
      rw [← getD_take_lt r m (i + 1 + k) 0 hkm]
      exact hkpos
    · obtain ⟨k, hk, hkpos⟩ := exists_pos_of_sum_pos _ hpos
      have hki : k < i := by
        rw [List.length_take] at hk
        omega
      refine ⟨k, by omega, by omega, ?_⟩
      rw [getD_take_lt _ i k 0 hki] at hkpos
      rw [← getD_take_lt r m k 0 (by omega)]
      exact hkpos
  obtain ⟨j, hji, hjm, hjpos⟩ := hj
  exact ⟨(i, j), mem_sweepPairs m i j him hjm hji, hgir, hjpos⟩

/-- A positive `tot_num_single_grp_ramps` exhibits a counted ramp. -/
theorem exists_ramp_of_countSingles_pos (m : ℕ) :
    ∀ (s : List (List ℕ)), 0 < countSingles m s →
      ∃ r ∈ s, 1 < (r.take m).sum ∧ 0 < (r.take m).count 1 := by
  intro s
  induction s with
  | nil => intro h; simp [countSingles] at h
  | cons r s' ih =>
      intro h
      unfold countSingles at h
      rw [List.map_cons, List.sum_cons] at h
      by_cases hr : 0 < (if 1 < (r.take m).sum then (r.take m).count 1 else 0)
      · refine ⟨r, by simp, ?_⟩
        by_cases hs : 1 < (r.take m).sum
        · rw [if_pos hs] at hr
          exact ⟨hs, hr⟩
        · rw [if_neg hs] at hr
          omega
      · have h' : 0 < countSingles m s' := by
          unfold countSingles
          omega
        obtain ⟨r', hmem, hp⟩ := ih h'
        exact ⟨r', by simp [hmem], hp⟩

/-- A sweep of all ramps never increases the total. -/
theorem totalSum_map_sweep_le (m : ℕ) :
    ∀ (s : List (List ℕ)), totalSum (s.map (sweepRamp m)) ≤ totalSum s := by
  intro s
  induction s with
  | nil => simp [totalSum]
  | cons r s' ih =>
      unfold totalSum at *
      simp only [List.map_cons, List.sum_cons]
      have hhead : (sweepRamp m r).sum ≤ r.sum :=
        foldl_stepPair_le (sweepPairs m) r
      omega

/-- A sweep of all ramps strictly decreases the total when some ramp is
counted. -/
theorem totalSum_lt_of_ramp (m : ℕ) :
    ∀ (s : List (List ℕ)) (r : List ℕ), r ∈ s →
      1 < (r.take m).sum → 0 < (r.take m).count 1 →
      totalSum (s.map (sweepRamp m)) < totalSum s := by
  intro s
  induction s with
  | nil => intro r hr; simp at hr
  | cons a s' ih =>
      intro r hr h1 h2
      unfold totalSum
      simp only [List.map_cons, List.sum_cons]
      rcases List.mem_cons.mp hr with rfl | hmem
      · obtain ⟨p, hp, hc1, hc2⟩ := exists_cond_pair m r h1 h2
        have hlt : (sweepRamp m r).sum < r.sum :=
          foldl_stepPair_lt (sweepPairs m) r p hp hc1 hc2
        have hle := totalSum_map_sweep_le m s'
        unfold totalSum at hle
        omega
      · have hlt := ih r hmem h1 h2
        have hle : (sweepRamp m a).sum ≤ a.sum :=
          foldl_stepPair_le (sweepPairs m) a
        unfold totalSum at hlt
        omega

/-- A zero count means no ramp has a single-group segment coexisting
with another non-empty segment. -/
theorem no_single_of_countSingles_zero (m : ℕ) (s : List (List ℕ))
    (h : countSingles m s = 0) :
    ∀ r ∈ s, ∀ i j, i ≠ j → (r.take m).getD i 0 = 1 →
      ¬ 0 < (r.take m).getD j 0 := by
  intro r hr i j hij hi hj
  have hmem : (1 : ℕ) ∈ r.take m := by
    have hlen : i < (r.take m).length := getD_pos_lt_length (by omega)
    have : (r.take m)[i] = 1 := by
      have := List.getD_eq_getElem?_getD (r.take m) i 0
      rw [List.getElem?_eq_getElem hlen] at this
      simpa using (this.symm.trans hi)
    exact this ▸ List.getElem_mem hlen
  have hcnt : 0 < (r.take m).count 1 := List.count_pos_iff.mpr hmem
  have hsum : 1 < (r.take m).sum := by
    have hilen : i < (r.take m).length := getD_pos_lt_length (by omega)
    have hjlen : j < (r.take m).length := getD_pos_lt_length hj
    have := two_elems_le_sum (r.take m) i j hij hilen hjlen
    omega
  have hpos : 0 < countSingles m s := by
    unfold countSingles
    have : ∀ (l : List (List ℕ)), r ∈ l → 0 <
        (l.map (fun r =>
          if 1 < (r.take m).sum then (r.take m).count 1 else 0)).sum := by
      intro l
      induction l with
      | nil => intro hx; simp at hx
      | cons a l' ih =>
          intro hx
          rw [List.map_cons, List.sum_cons]
          rcases List.mem_cons.mp hx with rfl | hmem'
          · rw [if_pos hsum]
            omega
          · have := ih hmem'
            omega
    exact this s hr
  omega

/-- C10: the while loop of `remove_bad_singles` always terminates — the
iteration budget `totalSum s + 1` is never exhausted, because each sweep
that runs strictly decreases the total of all segment lengths — and on
exit no ramp contains both a single-group segment and another non-empty
segment: the final count is zero (so the guard is false on the returned
state) and the per-ramp coexistence property fails everywhere. -/
theorem C10_remove_bad_singles_terminates (m : ℕ) (s : List (List ℕ)) :
    countSingles m (remove_bad_singles m s) = 0
    ∧ ∀ r ∈ remove_bad_singles m s, ∀ i j, i ≠ j →
        (r.take m).getD i 0 = 1 → ¬ 0 < (r.take m).getD j 0 := by
  have main : ∀ (N : ℕ) (t : List (List ℕ)), totalSum t < N →
      countSingles m (removeBadSinglesLoop m N t) = 0 := by
    intro N
    induction N with
    | zero => intro t h; omega
    | succ N ih =>
        intro t h
        rw [removeBadSinglesLoop]
        by_cases hc : 0 < countSingles m t
        · rw [if_pos hc]
          apply ih
          obtain ⟨r, hr, h1, h2⟩ := exists_ramp_of_countSingles_pos m t hc
          have := totalSum_lt_of_ramp m t r hr h1 h2
          omega
        · rw [if_neg hc]
          omega
  have hzero : countSingles m (remove_bad_singles m s) = 0 :=
    main (totalSum s + 1) s (by omega)
  exact ⟨hzero, no_single_of_countSingles_zero m _ hzero⟩

/-- Witness for C10 on the one-ramp input `[1, 0, 0]` (a lone
single-group segment, which is retained): the result still contains the
ramp and its second entry is not positive. -/
theorem C10_remove_bad_singles_terminates_witness :
    [1, 0, 0] ∈ remove_bad_singles 3 [[1, 0, 0]]
    ∧ ¬ 0 < (([1, 0, 0].take 3).getD 1 0) := by
  have hres : remove_bad_singles 3 [[1, 0, 0]] = [[1, 0, 0]] := by decide
  have hmem : [1, 0, 0] ∈ remove_bad_singles 3 [[1, 0, 0]] := by
    rw [hres]
    simp
  exact ⟨hmem,
    (C10_remove_bad_singles_terminates 3 [[1, 0, 0]]).2 [1, 0, 0] hmem 0 1
      (by decide) (by decide)⟩

end Stcal
